import Mathlib

/-!
Verification development for the audio-transposer repository.

The embedding models the worker pipeline (PitchShifterWorker in the web-worker
source: processAudio, processAudioWithStudy, tryRetrieveOutput), the
main-thread PitchShifter.shiftPitch validation prefix, and the WAV encoder
AudioExporter.audioBufferToWav.  The external RubberBand engine is opaque: it
is modelled as an oracle giving the results of each native call, and each
native call may throw.  Machine floats that only ever hold exact values in
the properties at issue are modelled as rationals.
-/

namespace AudioTransposer

/-! ## Sequential list writes (models Float32Array.set / DataView writes) -/

/-- Writes the elements of `src` into `dst` starting at index `o`,
one `List.set` per element, exactly as a typed-array `set` does. -/
def wl {α : Type} (dst : List α) (o : ℕ) (src : List α) : List α :=
  match src with
  | [] => dst
  | x :: xs => wl (dst.set o x) (o + 1) xs

theorem wl_length {α : Type} (src : List α) (dst : List α) (o : ℕ) :
    (wl dst o src).length = dst.length := by
  induction src generalizing dst o with
  | nil => rfl
  | cons x xs ih => simp [wl, ih]

theorem set_append_left {α : Type} (a b : List α) (x : α) :
    (a ++ b).set a.length x = a ++ b.set 0 x := by
  induction a with
  | nil => rfl
  | cons y ys ih => simp [List.set, ih]

theorem set_of_length_le {α : Type} (l : List α) (n : ℕ) (x : α) (h : l.length ≤ n) :
    l.set n x = l := by
  induction l generalizing n with
  | nil => rfl
  | cons y ys ih =>
      cases n with
      | zero => simp at h
      | succ m => simp only [List.set]; rw [ih m (by simpa using h)]

theorem wl_oob {α : Type} (src : List α) (dst : List α) (o : ℕ) (h : dst.length ≤ o) :
    wl dst o src = dst := by
  induction src generalizing dst o with
  | nil => rfl
  | cons x xs ih =>
      simp only [wl]
      rw [set_of_length_le dst o x h, ih dst (o + 1) (by omega)]

theorem wl_append {α : Type} (src : List α) :
    ∀ (a b : List α), wl (a ++ b) a.length src = a ++ wl b 0 src := by
  induction src with
  | nil => intro a b; rfl
  | cons x xs ih =>
      intro a b
      cases b with
      | nil =>
          simp only [wl, List.append_nil, List.set]
          rw [set_of_length_le a a.length x (le_refl _),
              wl_oob xs a (a.length + 1) (by omega),
              wl_oob xs [] 1 (by simp)]
          simp
      | cons y ys =>
          simp only [wl]
          have h1 : (a ++ y :: ys).set a.length x = (a ++ [x]) ++ ys := by
            rw [set_append_left]; simp [List.set]
          have h2 : a.length + 1 = (a ++ [x]).length := by simp
          rw [h1, h2, ih]
          have h3 : (y :: ys).set 0 x = [x] ++ ys := by simp [List.set]
          have h4 : (0 + 1 : ℕ) = ([x] : List α).length := by simp
          rw [h3, h4, ih]
          simp

theorem wl_zero_of_le {α : Type} (src b : List α) (h : src.length ≤ b.length) :
    wl b 0 src = src ++ b.drop src.length := by
  induction src generalizing b with
  | nil => simp [wl]
  | cons x xs ih =>
      cases b with
      | nil => simp at h
      | cons y ys =>
          simp only [wl, List.set]
          have : (x :: ys) = [x] ++ ys := rfl
          rw [this]
          have h1 : ([x] : List α).length = 1 := rfl
          have := wl_append xs [x] ys
          rw [h1] at this
          rw [this, ih ys (by simpa using h)]
          simp

/-- Composition of two contiguous writes is one write of the concatenation. -/
theorem wl_wl {α : Type} (xs ys : List α) (dst : List α) (o : ℕ) :
    wl (wl dst o xs) (o + xs.length) ys = wl dst o (xs ++ ys) := by
  induction xs generalizing dst o with
  | nil => simp [wl]
  | cons x t ih =>
      simp only [wl, List.length_cons]
      have h : o + (t.length + 1) = (o + 1) + t.length := by omega
      rw [h, ih]
      rfl

/-! ## Chunk descriptors (the study/process loops of processAudioWithStudy)

The worker's two passes both run
  while read < inputLength:
    chunkSize = min(samplesRequired, inputLength - read)
    isFinal = read + chunkSize >= inputLength
    ... engine call ...
    read += chunkSize
The loop is modelled with fuel; `none` means the fuel ran out with the loop
still running (the loop diverges for that fuel). -/

structure Chunk where
  offset : ℕ
  size : ℕ
  isFinal : Bool
deriving DecidableEq, Repr

/-- Fueled transcription of the chunk loop of processAudioWithStudy:
the list of (read, chunkSize, isFinal) triples the loop iterates over. -/
def chunksF (S L : ℕ) : ℕ → ℕ → Option (List Chunk)
  | 0, read => if read < L then none else some []
  | fuel + 1, read =>
      if read < L then
        let sz := min S (L - read)
        match chunksF S L fuel (read + sz) with
        | none => none
        | some rest => some (⟨read, sz, decide (L ≤ read + sz)⟩ :: rest)
      else some []

/-- Relational view of a completed chunk loop starting at `read`. -/
inductive ChunkSeq (S L : ℕ) : ℕ → List Chunk → Prop
  | nil (read : ℕ) (h : L ≤ read) : ChunkSeq S L read []
  | cons (read : ℕ) (h : read < L) (rest : List Chunk)
      (hr : ChunkSeq S L (read + min S (L - read)) rest) :
      ChunkSeq S L read
        (⟨read, min S (L - read), decide (L ≤ read + min S (L - read))⟩ :: rest)

theorem chunksF_sound {S L : ℕ} :
    ∀ {fuel read cs}, chunksF S L fuel read = some cs → ChunkSeq S L read cs := by
  intro fuel
  induction fuel with
  | zero =>
      intro read cs h
      simp only [chunksF] at h
      split at h
      · exact absurd h (by simp)
      · cases h
        exact ChunkSeq.nil read (by omega)
  | succ n ih =>
      intro read cs h
      simp only [chunksF] at h
      split at h
      · rename_i hlt
        cases hrec : chunksF S L n (read + min S (L - read)) with
        | none => rw [hrec] at h; cases h
        | some rest =>
            rw [hrec] at h
            cases h
            exact ChunkSeq.cons read hlt rest (ih hrec)
      · cases h
        rename_i hge
        exact ChunkSeq.nil read (by omega)

theorem chunksF_complete {S L : ℕ} (hS : 1 ≤ S) :
    ∀ fuel read, L - read ≤ fuel → (chunksF S L fuel read).isSome := by
  intro fuel
  induction fuel with
  | zero =>
      intro read h
      have : ¬ read < L := by omega
      simp [chunksF, this]
  | succ n ih =>
      intro read h
      by_cases hlt : read < L
      · have hsz : 1 ≤ min S (L - read) := by
          have : 1 ≤ L - read := by omega
          omega
        have := ih (read + min S (L - read)) (by omega)
        simp only [chunksF, hlt, if_true]
        cases hrec : chunksF S L n (read + min S (L - read)) with
        | none => rw [hrec] at this; simp at this
        | some rest => simp
      · simp [chunksF, hlt]

theorem chunkSeq_sizes {S L : ℕ} :
    ∀ {read cs}, ChunkSeq S L read cs →
      ∀ c ∈ cs, c.size = min S (L - c.offset) ∧ c.offset + c.size ≤ L := by
  intro read cs h
  induction h with
  | nil => intro c hc; cases hc
  | cons read h rest hr ih =>
      intro c hc
      cases hc with
      | head => exact ⟨by simp, by simp; omega⟩
      | tail _ hmem => exact ih c hmem

theorem chunkSeq_sum {S L : ℕ} :
    ∀ {read cs}, ChunkSeq S L read cs → (cs.map Chunk.size).sum = L - read := by
  intro read cs h
  induction h with
  | nil read h => simp; omega
  | cons read h rest hr ih =>
      simp only [List.map_cons, List.sum_cons, ih]
      omega

theorem chunkSeq_offsets {S L : ℕ} :
    ∀ {read cs}, ChunkSeq S L read cs →
      ∀ j (hj : j < cs.length), (cs.get ⟨j, hj⟩).offset = read + j * S := by
  intro read cs h
  induction h with
  | nil => intro j hj; simp at hj
  | cons read h rest hr ih =>
      intro j hj
      cases j with
      | zero => simp
      | succ m =>
          have hm : m < rest.length := by simpa using hj
          have := ih m hm
          -- the recursive start is read + min S (L - read); if rest is nonempty
          -- the minimum was S (otherwise the next read would be L)
          cases rest with
          | nil => simp at hm
          | cons c t =>
              have hmin : min S (L - read) = S := by
                cases hr with
                | cons r hlt rest2 hr2 =>
                    by_cases hc : S ≤ L - read
                    · omega
                    · omega
              simp only [List.get] at this ⊢
              rw [this, hmin]
              ring

theorem chunkSeq_final {S L : ℕ} :
    ∀ {read cs}, ChunkSeq S L read cs →
      ∀ c ∈ cs, (c.isFinal = true ↔ c.offset + c.size = L) := by
  intro read cs h
  induction h with
  | nil => intro c hc; cases hc
  | cons read h rest hr ih =>
      intro c hc
      cases hc with
      | head =>
          simp only [decide_eq_true_eq]
          constructor
          · intro hle; omega
          · intro he; omega
      | tail _ hmem => exact ih c hmem

/-- Only the last chunk is final: a final chunk is followed by nothing. -/
theorem chunkSeq_final_last {S L : ℕ} :
    ∀ {read cs}, ChunkSeq S L read cs →
      ∀ j (hj : j < cs.length),
        ((cs.get ⟨j, hj⟩).isFinal = true ↔ j = cs.length - 1) := by
  intro read cs h
  induction h with
  | nil => intro j hj; simp at hj
  | cons read h rest hr ih =>
      intro j hj
      cases j with
      | zero =>
          cases rest with
          | nil =>
              have hge : L ≤ read + min S (L - read) := by
                cases hr with
                | nil _ hg => exact hg
              simp [hge]
          | cons c t =>
              have hlt : read + min S (L - read) < L := by
                cases hr with
                | cons _ h1 _ _ => exact h1
              have hf : ¬ (L ≤ read + min S (L - read)) := by omega
              simp [hf]
      | succ m =>
          have hm : m < rest.length := by simpa using hj
          have hih := ih m hm
          have hne : rest.length ≠ 0 := by omega
          simp only [List.get, List.length_cons] at hih ⊢
          rw [hih]
          omega

theorem chunkSeq_length {S L : ℕ} (hS : 1 ≤ S) :
    ∀ {read cs}, ChunkSeq S L read cs → cs.length = (L - read + S - 1) / S := by
  intro read cs h
  induction h with
  | nil read h =>
      have h0 : L - read = 0 := by omega
      rw [h0]
      simp [Nat.div_eq_of_lt (show S - 1 < S by omega)]
  | cons read h rest hr ih =>
      simp only [List.length_cons, ih]
      by_cases hc : S ≤ L - read
      · have hmin : min S (L - read) = S := by omega
        rw [hmin]
        have h2 : L - read + S - 1 = (L - (read + S) + S - 1) + S := by omega
        rw [h2, Nat.add_div_right _ (by omega : 0 < S)]
      · have hmin : min S (L - read) = L - read := by omega
        rw [hmin]
        have h1 : L - (read + (L - read)) = 0 := by omega
        rw [h1]
        have h4 : 1 * S ≤ L - read + S - 1 := by omega
        have h3 : L - read + S - 1 < (1 + 1) * S := by omega
        rw [Nat.div_eq_of_lt (show 0 + S - 1 < S by omega),
            Nat.div_eq_of_lt_le h4 h3]

/-! ## The worker pipeline (PitchShifterWorker)

Events record every observable action of processAudio: native engine calls,
arena traffic (_malloc / _free) and posted messages.  The engine is an
oracle: call number `k` (counted across all wrapped engine calls) returns the
oracle's value for `k` and throws if the oracle says so.  Heap contents
written by the engine are read back through the oracle as well. -/

/-- One per-channel retrieval result (chunk[ch] is a float array). -/
abbrev OutChunk := List (List ℚ)

inductive Msg where
  | ready : Msg
  | progress (p : ℚ) : Msg
  | complete (outputChannels : List (List ℚ)) : Msg
  | error (s : String) : Msg
deriving DecidableEq, Repr

inductive Event where
  | newCall (sampleRate : ℤ) (channels : ℕ) : Event
  | deleteCall : Event
  | setTimeRatioCall (r : ℚ) : Event
  | setPitchScaleCall (r : ℚ) : Event
  | setExpectedDurationCall (n : ℕ) : Event
  | samplesRequiredCall (result : ℕ) : Event
  | setMaxProcessSizeCall (n : ℕ) : Event
  | studyCall (offset size : ℕ) (isFinal : Bool) : Event
  | processCall (offset size : ℕ) (isFinal : Bool) : Event
  | availableCall (result : ℕ) : Event
  | retrieveCall (maxSamples result : ℕ) : Event
  | mallocEv (bytes : ℕ) : Event
  | freeEv : Event
  | post (m : Msg) : Event
deriving DecidableEq, Repr

/-- Behaviour of the opaque RubberBand engine and heap, per wrapped call.
The call counter `k` counts every wrapped engine call in issue order. -/
structure Oracle where
  /-- Models Math.pow(2, x) (used for the pitch ratio). -/
  pow2 : ℚ → ℚ
  /-- Handle returned by rubberband_new (0 models a null handle). -/
  newHandle : ℤ
  /-- Value returned by rubberband_get_samples_required. -/
  samplesRequired : ℕ
  /-- Value returned by rubberband_available when it is call number k. -/
  avail : ℕ → ℕ
  /-- Value returned by rubberband_retrieve when it is call number k. -/
  retr : ℕ → ℕ
  /-- Float the engine left in the output buffer of channel ch at index i,
  as read back after retrieve call number k. -/
  heap : ℕ → ℕ → ℕ → ℚ
  /-- When some, wrapped engine call number k throws with that message. -/
  fails : ℕ → Option String

/-- Failure-free oracle: no wrapped engine call ever throws. -/
def Oracle.ok (o : Oracle) : Prop := ∀ k, o.fails k = none

inductive Err where
  | thrown (msg : String) : Err
  /-- A loop ran out of fuel: the JS control flow never leaves the loop. -/
  | diverged : Err
deriving DecidableEq, Repr

/-- Worker computations: given the engine-call counter, produce a result (or
an error), the new counter, and the list of events emitted by this
computation (in order). -/
def WM (α : Type) : Type := ℕ → Except Err α × ℕ × List Event

instance : Monad WM where
  pure a := fun k => (Except.ok a, k, [])
  bind x f := fun k =>
    match x k with
    | (Except.ok a, k', e₁) =>
        match f a k' with
        | (r, k'', e₂) => (r, k'', e₁ ++ e₂)
    | (Except.error e, k', e₁) => (Except.error e, k', e₁)

def emit (e : Event) : WM Unit := fun k => (Except.ok (), k, [e])

def throwWM {α : Type} (e : Err) : WM α := fun k => (Except.error e, k, [])

/-- One wrapped engine call: consults the failure oracle at the current call
counter, emits the call's event either way, and bumps the counter. -/
def engCall {α : Type} (o : Oracle) (f : ℕ → α × Event) : WM α := fun k =>
  match o.fails k with
  | some m => (Except.error (Err.thrown m), k + 1, [(f k).2])
  | none => (Except.ok (f k).1, k + 1, [(f k).2])

def engCallU (o : Oracle) (e : Event) : WM Unit := engCall o (fun _ => ((), e))

/-- try { body } finally { fin }: the finaliser runs whether the body returns
or throws, but of course not if the body never terminates. -/
def tryFinally {α : Type} (body : WM α) (fin : WM Unit) : WM α := fun k =>
  match body k with
  | (Except.error Err.diverged, k', e₁) => (Except.error Err.diverged, k', e₁)
  | (r, k', e₁) =>
      match fin k' with
      | (Except.ok _, k'', e₂) => (r, k'', e₁ ++ e₂)
      | (Except.error err, k'', e₂) => (Except.error err, k'', e₁ ++ e₂)

/-- n consecutive _malloc(bytes) calls (one per channel). -/
def mallocN : ℕ → ℕ → WM Unit
  | 0, _ => pure ()
  | n + 1, bytes => do
      emit (Event.mallocEv bytes)
      mallocN n bytes

/-- n consecutive _free calls. -/
def freeN : ℕ → WM Unit
  | 0 => pure ()
  | n + 1 => do
      emit Event.freeEv
      freeN n

/-- Result / counter / event projections of a finished computation. -/
def runRes {α : Type} (x : Except Err α × ℕ × List Event) : Except Err α := x.1
def runEv {α : Type} (x : Except Err α × ℕ × List Event) : List Event := x.2.2

/-- Transcription of PitchShifterWorker.tryRetrieveOutput:
  while true:
    available = rubberband_available(stretcher); if available < 1 break
    if !final && available < samplesRequired break
    try: malloc channels output buffers of available floats;
         retrieved = rubberband_retrieve(stretcher, ptrs, min(samplesRequired, available));
         if retrieved > 0 push the per-channel copies onto outputChunks
    finally: free the output buffers. -/
def tryRetrieveOutput (o : Oracle) (channels S : ℕ) (final : Bool) :
    ℕ → List OutChunk → WM (List OutChunk)
  | 0, _ => throwWM Err.diverged
  | fuel + 1, outputChunks => do
      let available ← engCall o (fun k => (o.avail k, Event.availableCall (o.avail k)))
      if available < 1 then pure outputChunks
      else if !final && available < S then pure outputChunks
      else do
        let outputChunks' ← tryFinally
          (do
            mallocN channels (available * 4)
            let rk ← engCall o (fun k =>
              ((o.retr k, k), Event.retrieveCall (min S available) (o.retr k)))
            if rk.1 > 0 then
              pure (outputChunks ++
                [(List.range channels).map (fun ch =>
                  (List.range rk.1).map (fun i => o.heap rk.2 ch i))])
            else pure outputChunks)
          (freeN channels)
        tryRetrieveOutput o channels S final fuel outputChunks'

/-- Transcription of the first (study) while-loop of processAudioWithStudy.
Each iteration issues rubberband_study(ptrs, chunkSize, isFinal) and then
posts progress = (read / inputLength) * 50 with the advanced read. -/
def studyLoop (o : Oracle) (S L : ℕ) : ℕ → ℕ → WM Unit
  | 0, read => if read < L then throwWM Err.diverged else pure ()
  | fuel + 1, read =>
      if read < L then do
        let chunkSize := min S (L - read)
        engCallU o (Event.studyCall read chunkSize (decide (L ≤ read + chunkSize)))
        emit (Event.post (Msg.progress (((read + chunkSize : ℕ) : ℚ) / (L : ℚ) * 50)))
        studyLoop o S L fuel (read + chunkSize)
      else pure ()

/-- Transcription of the second (process) while-loop of processAudioWithStudy.
Each iteration issues rubberband_process, runs tryRetrieveOutput with
final=false, and posts progress = 50 + (read / inputLength) * 50. -/
def processLoop (o : Oracle) (channels S L rfuel : ℕ) :
    ℕ → ℕ → List OutChunk → WM (List OutChunk)
  | 0, read, acc => if read < L then throwWM Err.diverged else pure acc
  | fuel + 1, read, acc =>
      if read < L then do
        let chunkSize := min S (L - read)
        engCallU o (Event.processCall read chunkSize (decide (L ≤ read + chunkSize)))
        let acc' ← tryRetrieveOutput o channels S false rfuel acc
        emit (Event.post (Msg.progress (50 + ((read + chunkSize : ℕ) : ℚ) / (L : ℚ) * 50)))
        processLoop o channels S L rfuel fuel (read + chunkSize) acc'
      else pure acc

/-- totalLength = outputChunks.reduce((sum, chunk) => sum + chunk[0].length, 0). -/
def totalLen (outputChunks : List OutChunk) : ℕ :=
  (outputChunks.map (fun chunk => chunk.headI.length)).sum

/-- Per-channel recombination: channelData = new Float32Array(totalLength);
for each chunk: channelData.set(chunk[ch], offset); offset += chunk[ch].length. -/
def combineChannel (T : ℕ) (outputChunks : List OutChunk) (ch : ℕ) : List ℚ :=
  (outputChunks.foldl
    (fun (acc : List ℚ × ℕ) chunk =>
      (wl acc.1 acc.2 (chunk.getD ch []), acc.2 + (chunk.getD ch []).length))
    (List.replicate T 0, 0)).1

/-- Lines 206-219 of the worker: build one contiguous array per channel. -/
def combine (channels : ℕ) (outputChunks : List OutChunk) : List (List ℚ) :=
  (List.range channels).map (combineChannel (totalLen outputChunks) outputChunks)

/-- Body of the try block of processAudioWithStudy (lines 160-221): study
pass, process pass, final drain with final=true, then recombination. -/
def pAWSbody (o : Oracle) (L channels S fuel rfuel : ℕ) : WM (List (List ℚ)) := do
  studyLoop o S L fuel 0
  let acc ← processLoop o channels S L rfuel fuel 0 []
  let acc' ← tryRetrieveOutput o channels S true rfuel acc
  pure (combine channels acc')

/-- The worker's `outputChunks` accumulator as it stands at line 206, when
retrieval has finished and recombination begins: the same study pass, process
pass and final drain as pAWSbody (lines 160-205), without the recombination
step.  The run is deterministic given the oracle, so this value is the list
of chunks the request actually retrieved and stored, in retrieval order
(tryRetrieveOutput appends each retrieved chunk at the end). -/
def outputChunksRun (o : Oracle) (L channels S fuel rfuel : ℕ) :
    WM (List OutChunk) := do
  studyLoop o S L fuel 0
  let acc ← processLoop o channels S L rfuel fuel 0 []
  tryRetrieveOutput o channels S true rfuel acc

/-- Finally block of processAudioWithStudy (lines 222-226): free the
per-channel staging buffers, then the two pointer tables. -/
def pAWSfin (channels : ℕ) : WM Unit := do
  freeN channels
  emit Event.freeEv
  emit Event.freeEv

/-- Transcription of PitchShifterWorker.processAudioWithStudy.  The pointer
tables and per-channel input staging buffers are allocated up front; the study
pass, process pass, final drain and recombination run inside try, and the
finally frees the staging allocations.  (Heap stores of input samples are not
observable and are not traced; the engine's replies come from the oracle.) -/
def processAudioWithStudy (o : Oracle) (L channels S fuel rfuel : ℕ) :
    WM (List (List ℚ)) := do
  emit (Event.mallocEv (channels * 4))
  emit (Event.mallocEv (channels * 4))
  mallocN channels (S * 4)
  tryFinally (pAWSbody o L channels S fuel rfuel) (pAWSfin channels)

/-- Body of the try block of processAudio (lines 117-136): configure the
stretcher, read samplesRequired, run processAudioWithStudy, post complete. -/
def paBody (o : Oracle) (L channels fuel rfuel : ℕ) (pitchRatio : ℚ) : WM Unit := do
  engCallU o (Event.setTimeRatioCall 1)
  engCallU o (Event.setPitchScaleCall pitchRatio)
  engCallU o (Event.setExpectedDurationCall L)
  let S ← engCall o
    (fun _ => (o.samplesRequired, Event.samplesRequiredCall o.samplesRequired))
  engCallU o (Event.setMaxProcessSizeCall S)
  let outputChannels ← processAudioWithStudy o L channels S fuel rfuel
  emit (Event.post (Msg.complete outputChannels))

/-- Transcription of PitchShifterWorker.processAudio.  semitones === 0 posts
the input back unchanged; otherwise a stretcher is created, configured and
driven through processAudioWithStudy inside try, with rubberband_delete in
the finally. -/
def processAudio (o : Oracle) (audioData : List (List ℚ)) (sampleRate : ℚ)
    (channels : ℕ) (semitones : ℚ) (fuel rfuel : ℕ) : WM Unit := do
  if semitones = 0 then
    emit (Event.post (Msg.complete audioData))
  else do
    let inputLength := audioData.headI.length
    let pitchRatio := o.pow2 (semitones / 12)
    let stretcher ← engCall o (fun _ => (o.newHandle, Event.newCall ⌊sampleRate⌋ channels))
    if stretcher = 0 then
      throwWM (Err.thrown "Failed to create RubberBand stretcher")
    else
      tryFinally (paBody o inputLength channels fuel rfuel pitchRatio)
        (engCallU o Event.deleteCall)

/-! ## Event observers -/

def isMalloc : Event → Bool
  | Event.mallocEv _ => true
  | _ => false

def isFree : Event → Bool
  | Event.freeEv => true
  | _ => false

def isDelete : Event → Bool
  | Event.deleteCall => true
  | _ => false

def isNew : Event → Bool
  | Event.newCall _ _ => true
  | _ => false

/-- Progress values posted, in order. -/
def progressValues (l : List Event) : List ℚ :=
  l.filterMap (fun e =>
    match e with
    | Event.post (Msg.progress p) => some p
    | _ => none)

/-- Study calls (offset, size, isFinal) on the left, process calls on the
right, interleaved as issued. -/
def studyProcessCalls (l : List Event) : List (Chunk ⊕ Chunk) :=
  l.filterMap (fun e =>
    match e with
    | Event.studyCall off sz fin => some (Sum.inl ⟨off, sz, fin⟩)
    | Event.processCall off sz fin => some (Sum.inr ⟨off, sz, fin⟩)
    | _ => none)

/-! ## Pointwise evaluation lemmas for the worker monad -/

@[simp] theorem pure_apply {α : Type} (a : α) (k : ℕ) :
    (pure a : WM α) k = (Except.ok a, k, []) := rfl

@[simp] theorem bind_apply {α β : Type} (x : WM α) (f : α → WM β) (k : ℕ) :
    (x >>= f) k =
      match x k with
      | (Except.ok a, k', e₁) =>
          match f a k' with
          | (r, k'', e₂) => (r, k'', e₁ ++ e₂)
      | (Except.error e, k', e₁) => (Except.error e, k', e₁) := rfl

@[simp] theorem emit_apply (e : Event) (k : ℕ) :
    emit e k = (Except.ok (), k, [e]) := rfl

@[simp] theorem throwWM_apply {α : Type} (er : Err) (k : ℕ) :
    (throwWM er : WM α) k = (Except.error er, k, []) := rfl

theorem engCall_apply_ok {α : Type} (o : Oracle) (f : ℕ → α × Event) (k : ℕ)
    (h : o.fails k = none) :
    engCall o f k = (Except.ok (f k).1, k + 1, [(f k).2]) := by
  simp [engCall, h]

theorem engCallU_apply_ok (o : Oracle) (e : Event) (k : ℕ) (h : o.fails k = none) :
    engCallU o e k = (Except.ok (), k + 1, [e]) := by
  simp [engCallU, engCall, h]

theorem engCall_ev {α : Type} (o : Oracle) (f : ℕ → α × Event) (k : ℕ) :
    (engCall o f k).2.2 = [(f k).2] := by
  unfold engCall
  cases o.fails k <;> rfl

@[simp] theorem mallocN_apply (n bytes k : ℕ) :
    mallocN n bytes k = (Except.ok (), k, List.replicate n (Event.mallocEv bytes)) := by
  induction n generalizing k with
  | zero => rfl
  | succ m ih => simp [mallocN, ih, List.replicate_succ]

@[simp] theorem freeN_apply (n k : ℕ) :
    freeN n k = (Except.ok (), k, List.replicate n Event.freeEv) := by
  induction n generalizing k with
  | zero => rfl
  | succ m ih => simp [freeN, ih, List.replicate_succ]

/-! ## The study pass as a function of the chunk list -/

/-- Events of one study iteration over chunk c. -/
def studyIterEvents (L : ℕ) (c : Chunk) : List Event :=
  [Event.studyCall c.offset c.size c.isFinal,
   Event.post (Msg.progress (((c.offset + c.size : ℕ) : ℚ) / (L : ℚ) * 50))]

theorem studyLoop_ok (o : Oracle) (ho : o.ok) (S L : ℕ) :
    ∀ fuel read cs k, chunksF S L fuel read = some cs →
      studyLoop o S L fuel read k =
        (Except.ok (), k + cs.length, (cs.map (studyIterEvents L)).flatten) := by
  intro fuel
  induction fuel with
  | zero =>
      intro read cs k h
      simp only [chunksF] at h
      split at h
      · exact absurd h (by simp)
      · cases h
        rename_i hge
        simp [studyLoop, hge]
  | succ n ih =>
      intro read cs k h
      simp only [chunksF] at h
      split at h
      · rename_i hlt
        cases hrec : chunksF S L n (read + min S (L - read)) with
        | none => rw [hrec] at h; cases h
        | some rest =>
            rw [hrec] at h
            cases h
            simp only [studyLoop, hlt, if_true, bind_apply,
              engCallU_apply_ok o _ k (ho k), emit_apply,
              ih _ _ _ hrec]
            simp [studyIterEvents]
            omega
      · cases h
        rename_i hge
        simp [studyLoop, hge]

/-! ## Facts about the retrieval loop that hold for every oracle -/

theorem engCall_apply_fail {α : Type} (o : Oracle) (f : ℕ → α × Event) (k : ℕ)
    (m : String) (h : o.fails k = some m) :
    engCall o f k = (Except.error (Err.thrown m), k + 1, [(f k).2]) := by
  simp [engCall, h]

/-- Events a retrieval loop may emit. -/
def retrEvent : Event → Bool
  | Event.availableCall _ => true
  | Event.retrieveCall _ _ => true
  | Event.mallocEv _ => true
  | Event.freeEv => true
  | _ => false

theorem countP_replicate (p : Event → Bool) (a : Event) (n : ℕ) :
    (List.replicate n a).countP p = if p a then n else 0 := by
  induction n with
  | zero => simp
  | succ m ih =>
      rw [List.replicate_succ, List.countP_cons, ih]
      by_cases h : p a = true
      · simp [h]
      · simp [h]

/-- The accumulator after one retrieval iteration whose retrieve was engine
call number kr. -/
def retrStep (o : Oracle) (C kr : ℕ) (acc : List OutChunk) : List OutChunk :=
  if o.retr kr > 0 then
    acc ++ [(List.range C).map (fun ch =>
      (List.range (o.retr kr)).map (fun i => o.heap kr ch i))]
  else acc

/-- Events of one full (non-breaking, non-throwing) retrieval iteration. -/
def retrIterEvents (o : Oracle) (C S k : ℕ) : List Event :=
  Event.availableCall (o.avail k) ::
    (List.replicate C (Event.mallocEv (o.avail k * 4)) ++
      Event.retrieveCall (min S (o.avail k)) (o.retr (k + 1)) ::
        List.replicate C Event.freeEv)

theorem tryRetrieve_break0 (o : Oracle) (C S : ℕ) (fin : Bool) (n k : ℕ)
    (acc : List OutChunk) (hf : o.fails k = none) (h1 : o.avail k < 1) :
    tryRetrieveOutput o C S fin (n + 1) acc k =
      (Except.ok acc, k + 1, [Event.availableCall (o.avail k)]) := by
  have h0 : o.avail k = 0 := by omega
  simp [tryRetrieveOutput, engCall_apply_ok o _ k hf, h0]

theorem tryRetrieve_breakS (o : Oracle) (C S : ℕ) (fin : Bool) (n k : ℕ)
    (acc : List OutChunk) (hf : o.fails k = none) (h1 : ¬ o.avail k < 1)
    (h2 : (!fin && decide (o.avail k < S)) = true) :
    tryRetrieveOutput o C S fin (n + 1) acc k =
      (Except.ok acc, k + 1, [Event.availableCall (o.avail k)]) := by
  have h0 : ¬ o.avail k = 0 := by omega
  have h2' : fin = false ∧ o.avail k < S := by simpa using h2
  simp [tryRetrieveOutput, engCall_apply_ok o _ k hf, h0, h2'.1, h2'.2]

theorem tryRetrieve_failAvail (o : Oracle) (C S : ℕ) (fin : Bool) (n k : ℕ)
    (acc : List OutChunk) (m : String) (hf : o.fails k = some m) :
    tryRetrieveOutput o C S fin (n + 1) acc k =
      (Except.error (Err.thrown m), k + 1, [Event.availableCall (o.avail k)]) := by
  simp [tryRetrieveOutput, engCall_apply_fail o _ k m hf]

theorem tryRetrieve_failRetr (o : Oracle) (C S : ℕ) (fin : Bool) (n k : ℕ)
    (acc : List OutChunk) (m : String)
    (hf : o.fails k = none) (h1 : ¬ o.avail k < 1)
    (h2 : (!fin && decide (o.avail k < S)) = false)
    (hf2 : o.fails (k + 1) = some m) :
    tryRetrieveOutput o C S fin (n + 1) acc k =
      (Except.error (Err.thrown m), k + 1 + 1, retrIterEvents o C S k) := by
  have h0 : ¬ o.avail k = 0 := by omega
  have h2' : ¬ (fin = false ∧ o.avail k < S) := by
    intro hc
    simp [hc.1, hc.2] at h2
  simp [tryRetrieveOutput, engCall_apply_ok o _ k hf, tryFinally,
    engCall_apply_fail o _ (k + 1) m hf2, h0, h2', retrIterEvents]

theorem tryRetrieve_iter (o : Oracle) (C S : ℕ) (fin : Bool) (n k : ℕ)
    (acc : List OutChunk)
    (hf : o.fails k = none) (h1 : ¬ o.avail k < 1)
    (h2 : (!fin && decide (o.avail k < S)) = false)
    (hf2 : o.fails (k + 1) = none) :
    tryRetrieveOutput o C S fin (n + 1) acc k =
      ((tryRetrieveOutput o C S fin n (retrStep o C (k + 1) acc) (k + 1 + 1)).1,
        (tryRetrieveOutput o C S fin n (retrStep o C (k + 1) acc) (k + 1 + 1)).2.1,
        retrIterEvents o C S k ++
          (tryRetrieveOutput o C S fin n (retrStep o C (k + 1) acc) (k + 1 + 1)).2.2) := by
  have h0 : ¬ o.avail k = 0 := by omega
  have h2' : ¬ (fin = false ∧ o.avail k < S) := by
    intro hc
    simp [hc.1, hc.2] at h2
  rcases hrec : tryRetrieveOutput o C S fin n (retrStep o C (k + 1) acc) (k + 1 + 1)
    with ⟨r, k', ev⟩
  by_cases h3 : o.retr (k + 1) > 0
  · simp only [retrStep, h3, if_true] at hrec
    simp [tryRetrieveOutput, engCall_apply_ok o _ k hf, tryFinally,
      engCall_apply_ok o _ (k + 1) hf2, h0, h2', h3, retrIterEvents, hrec]
  · simp only [retrStep, h3, if_false] at hrec
    simp [tryRetrieveOutput, engCall_apply_ok o _ k hf, tryFinally,
      engCall_apply_ok o _ (k + 1) hf2, h0, h2', h3, retrIterEvents, hrec]

theorem retrIterEvents_shape (o : Oracle) (C S k : ℕ) :
    ∀ e ∈ retrIterEvents o C S k, retrEvent e = true := by
  intro e he
  simp only [retrIterEvents, List.mem_cons, List.mem_append,
    List.mem_replicate] at he
  rcases he with he | he | he | he
  · simp [he, retrEvent]
  · simp [he.2, retrEvent]
  · simp [he, retrEvent]
  · simp [he.2, retrEvent]

theorem tryRetrieve_facts (o : Oracle) (C S : ℕ) (fin : Bool) :
    ∀ fuel acc k,
      ((runEv (tryRetrieveOutput o C S fin fuel acc k)).countP isMalloc =
        (runEv (tryRetrieveOutput o C S fin fuel acc k)).countP isFree) ∧
      (∀ e ∈ runEv (tryRetrieveOutput o C S fin fuel acc k), retrEvent e = true) := by
  intro fuel
  induction fuel with
  | zero => intro acc k; simp [tryRetrieveOutput, runEv]
  | succ n ih =>
      intro acc k
      cases hf : o.fails k with
      | some m =>
          rw [tryRetrieve_failAvail o C S fin n k acc m hf]
          refine ⟨by simp [runEv, isMalloc, isFree], ?_⟩
          intro e he
          simp [runEv] at he
          simp [he, retrEvent]
      | none =>
          by_cases h1 : o.avail k < 1
          · rw [tryRetrieve_break0 o C S fin n k acc hf h1]
            refine ⟨by simp [runEv, isMalloc, isFree], ?_⟩
            intro e he
            simp [runEv] at he
            simp [he, retrEvent]
          · by_cases h2 : (!fin && decide (o.avail k < S)) = true
            · rw [tryRetrieve_breakS o C S fin n k acc hf h1 h2]
              refine ⟨by simp [runEv, isMalloc, isFree], ?_⟩
              intro e he
              simp [runEv] at he
              simp [he, retrEvent]
            · rw [Bool.not_eq_true] at h2
              cases hf2 : o.fails (k + 1) with
              | some m2 =>
                  rw [tryRetrieve_failRetr o C S fin n k acc m2 hf h1 h2 hf2]
                  refine ⟨?_, ?_⟩
                  · simp [runEv, retrIterEvents, List.countP_cons, List.countP_append,
                      countP_replicate, isMalloc, isFree]
                  · intro e he
                    exact retrIterEvents_shape o C S k e (by simpa [runEv] using he)
              | none =>
                  rw [tryRetrieve_iter o C S fin n k acc hf h1 h2 hf2]
                  have hrec := ih (retrStep o C (k + 1) acc) (k + 1 + 1)
                  refine ⟨?_, ?_⟩
                  · simp only [runEv, List.countP_append] at hrec ⊢
                    simp [retrIterEvents, List.countP_cons, List.countP_append,
                      countP_replicate, isMalloc, isFree, hrec.1]
                  · intro e he
                    simp only [runEv, List.mem_append] at he
                    rcases he with he | he
                    · exact retrIterEvents_shape o C S k e he
                    · exact hrec.2 e (by simpa [runEv] using he)

/-! ## Per-event facts that hold for every oracle, including throwing ones -/

/-- List of events is arena-balanced: as many _malloc as _free calls. -/
def bal (l : List Event) : Prop := l.countP isMalloc = l.countP isFree

theorem bal_append {l₁ l₂ : List Event} (h₁ : bal l₁) (h₂ : bal l₂) :
    bal (l₁ ++ l₂) := by
  simp [bal, List.countP_append] at h₁ h₂ ⊢
  omega

/-- Events the study loop may emit. -/
def studyEvent : Event → Bool
  | Event.studyCall _ _ _ => true
  | Event.post (Msg.progress _) => true
  | _ => false

/-- Events the process loop may emit. -/
def procEvent : Event → Bool
  | Event.processCall _ _ _ => true
  | Event.post (Msg.progress _) => true
  | e => retrEvent e

theorem studyLoop_shape (o : Oracle) (S L : ℕ) :
    ∀ fuel read k, ∀ e ∈ runEv (studyLoop o S L fuel read k), studyEvent e = true := by
  intro fuel
  induction fuel with
  | zero =>
      intro read k e he
      by_cases hlt : read < L <;> simp [studyLoop, hlt, runEv] at he
  | succ n ih =>
      intro read k e he
      by_cases hlt : read < L
      · simp only [studyLoop, hlt, if_true, bind_apply, engCallU] at he
        cases hf : o.fails k with
        | some m =>
            rw [engCall_apply_fail o _ k m hf] at he
            simp [runEv] at he
            simp [he, studyEvent]
        | none =>
            rw [engCall_apply_ok o _ k hf] at he
            simp only [emit_apply, runEv] at he
            rcases hrec : studyLoop o S L n (read + min S (L - read)) (k + 1)
              with ⟨rr, kr, er⟩
            rw [hrec] at he
            simp at he
            rcases he with he | he | he
            · simp [he, studyEvent]
            · simp [he, studyEvent]
            · exact ih (read + min S (L - read)) (k + 1) e
                (by simpa [runEv, hrec] using he)
      · simp [studyLoop, hlt, runEv] at he

theorem processLoop_facts (o : Oracle) (C S L rfuel : ℕ) :
    ∀ fuel read acc k,
      bal (runEv (processLoop o C S L rfuel fuel read acc k)) ∧
      (∀ e ∈ runEv (processLoop o C S L rfuel fuel read acc k), procEvent e = true) := by
  intro fuel
  induction fuel with
  | zero =>
      intro read acc k
      by_cases hlt : read < L <;> simp [processLoop, hlt, runEv, bal]
  | succ n ih =>
      intro read acc k
      by_cases hlt : read < L
      · simp only [processLoop, hlt, if_true, bind_apply]
        cases hf : o.fails k with
        | some m =>
            rw [engCallU, engCall_apply_fail o _ k m hf]
            refine ⟨by simp [runEv, bal, isMalloc, isFree], ?_⟩
            intro e he
            simp [runEv] at he
            simp [he, procEvent]
        | none =>
            rw [engCallU, engCall_apply_ok o _ k hf]
            rcases htr : tryRetrieveOutput o C S false rfuel acc (k + 1)
              with ⟨rtr, ktr, etr⟩
            have htrF := tryRetrieve_facts o C S false rfuel acc (k + 1)
            rw [htr] at htrF
            simp only [runEv] at htrF
            cases rtr with
            | error er =>
                simp only [htr]
                refine ⟨?_, ?_⟩
                · simp only [runEv, bal, List.countP_cons, List.countP_append]
                  have := htrF.1
                  simp [bal, isMalloc, isFree] at this ⊢
                  omega
                · intro e he
                  simp [runEv] at he
                  rcases he with he | he
                  · simp [he, procEvent]
                  · have := htrF.2 e he
                    cases e <;> simp [retrEvent, procEvent] at this ⊢
            | ok acc' =>
                simp only [htr, emit_apply]
                rcases hrec : processLoop o C S L rfuel n (read + min S (L - read)) acc' ktr
                  with ⟨rr, kr, er⟩
                have hrecF := ih (read + min S (L - read)) acc' ktr
                rw [hrec] at hrecF
                simp only [runEv] at hrecF
                simp only [hrec]
                refine ⟨?_, ?_⟩
                · simp only [runEv, bal, List.countP_cons, List.countP_append]
                  have h1 := htrF.1
                  have h2 := hrecF.1
                  simp [bal, isMalloc, isFree] at h1 h2 ⊢
                  omega
                · intro e he
                  simp [runEv] at he
                  rcases he with he | he | he | he
                  · simp [he, procEvent]
                  · have := htrF.2 e he
                    cases e <;> simp [retrEvent, procEvent] at this ⊢
                  · simp [he, procEvent]
                  · exact hrecF.2 e he
      · by_cases h : True <;> simp [processLoop, hlt, runEv, bal]

/-- Facts needed by the session-lifecycle and arena-balance claims: no
rubberband_delete and no rubberband_new among the events, and arena balance
whenever the computation terminated (returned or threw). -/
structure WMFacts {α : Type} (t : Except Err α × ℕ × List Event) : Prop where
  noDel : t.2.2.countP isDelete = 0
  noNew : t.2.2.countP isNew = 0
  balOk : t.1 ≠ Except.error Err.diverged → bal t.2.2

theorem bind_WMFacts {α β : Type} (x : WM α) (f : α → WM β) (k : ℕ)
    (hx : WMFacts (x k)) (hf : ∀ a, WMFacts (f a (x k).2.1)) :
    WMFacts ((x >>= f) k) := by
  rcases hx' : x k with ⟨rx, kx, ex⟩
  rw [hx'] at hx hf
  cases rx with
  | error e =>
      have hb : (x >>= f) k = (Except.error e, kx, ex) := by simp [bind_apply, hx']
      rw [hb]
      refine ⟨hx.noDel, hx.noNew, fun h => hx.balOk ?_⟩
      intro hc
      apply h
      have he : e = Err.diverged := by injection hc
      rw [he]
  | ok a =>
      have hfa := hf a
      rcases hf' : f a kx with ⟨rf, kf, ef⟩
      rw [hf'] at hfa
      have hb : (x >>= f) k = (rf, kf, ex ++ ef) := by simp [bind_apply, hx', hf']
      rw [hb]
      refine ⟨?_, ?_, ?_⟩
      · simp [List.countP_append, hx.noDel, hfa.noDel]
      · simp [List.countP_append, hx.noNew, hfa.noNew]
      · intro h
        exact bal_append (hx.balOk (by simp)) (hfa.balOk h)

theorem countP_zero_of_shape {l : List Event} {P Q : Event → Bool}
    (h : ∀ e ∈ l, P e = true) (hPQ : ∀ e, Q e = true → P e = false) :
    l.countP Q = 0 := by
  rw [List.countP_eq_zero]
  intro a ha hQ
  have hP := h a ha
  rw [hPQ a hQ] at hP
  exact Bool.false_ne_true hP

theorem WMFacts_pure {α : Type} (a : α) (k : ℕ) : WMFacts ((pure a : WM α) k) :=
  ⟨by simp, by simp, fun _ => by simp [bal]⟩

theorem WMFacts_engCall {α : Type} (o : Oracle) (f : ℕ → α × Event) (k : ℕ)
    (hD : isDelete (f k).2 = false) (hN : isNew (f k).2 = false)
    (hM : isMalloc (f k).2 = false) (hF : isFree (f k).2 = false) :
    WMFacts (engCall o f k) := by
  unfold engCall
  cases o.fails k with
  | some m =>
      exact ⟨by simp [List.countP_cons, hD], by simp [List.countP_cons, hN],
        fun _ => by simp [bal, List.countP_cons, hM, hF]⟩
  | none =>
      exact ⟨by simp [List.countP_cons, hD], by simp [List.countP_cons, hN],
        fun _ => by simp [bal, List.countP_cons, hM, hF]⟩

theorem WMFacts_engCallU (o : Oracle) (e : Event) (k : ℕ)
    (hD : isDelete e = false) (hN : isNew e = false)
    (hM : isMalloc e = false) (hF : isFree e = false) :
    WMFacts (engCallU o e k) :=
  WMFacts_engCall o _ k hD hN hM hF

theorem WMFacts_emit (e : Event) (k : ℕ)
    (hD : isDelete e = false) (hN : isNew e = false)
    (hM : isMalloc e = false) (hF : isFree e = false) :
    WMFacts (emit e k) :=
  ⟨by simp [List.countP_cons, hD], by simp [List.countP_cons, hN],
    fun _ => by simp [bal, List.countP_cons, hM, hF]⟩

theorem WMFacts_studyLoop (o : Oracle) (S L fuel read k : ℕ) :
    WMFacts (studyLoop o S L fuel read k) := by
  have h := studyLoop_shape o S L fuel read k
  refine ⟨countP_zero_of_shape h ?_, countP_zero_of_shape h ?_, fun _ => ?_⟩
  · intro e hQ; cases e <;> simp [isDelete, studyEvent] at hQ ⊢
  · intro e hQ; cases e <;> simp [isNew, studyEvent] at hQ ⊢
  · have hM : (runEv (studyLoop o S L fuel read k)).countP isMalloc = 0 :=
      countP_zero_of_shape h (by intro e hQ; cases e <;> simp [isMalloc, studyEvent] at hQ ⊢)
    have hF : (runEv (studyLoop o S L fuel read k)).countP isFree = 0 :=
      countP_zero_of_shape h (by intro e hQ; cases e <;> simp [isFree, studyEvent] at hQ ⊢)
    rw [bal, runEv] at *
    rw [hM, hF]

theorem WMFacts_processLoop (o : Oracle) (C S L rfuel fuel read k : ℕ)
    (acc : List OutChunk) :
    WMFacts (processLoop o C S L rfuel fuel read acc k) := by
  have h := (processLoop_facts o C S L rfuel fuel read acc k).2
  refine ⟨countP_zero_of_shape h ?_, countP_zero_of_shape h ?_,
    fun _ => (processLoop_facts o C S L rfuel fuel read acc k).1⟩
  · intro e hQ; cases e <;> simp [isDelete, procEvent, retrEvent] at hQ ⊢
  · intro e hQ; cases e <;> simp [isNew, procEvent, retrEvent] at hQ ⊢

theorem WMFacts_tryRetrieve (o : Oracle) (C S : ℕ) (fin : Bool) (fuel k : ℕ)
    (acc : List OutChunk) :
    WMFacts (tryRetrieveOutput o C S fin fuel acc k) := by
  have h := (tryRetrieve_facts o C S fin fuel acc k).2
  refine ⟨countP_zero_of_shape h ?_, countP_zero_of_shape h ?_,
    fun _ => (tryRetrieve_facts o C S fin fuel acc k).1⟩
  · intro e hQ; cases e <;> simp [isDelete, retrEvent] at hQ ⊢
  · intro e hQ; cases e <;> simp [isNew, retrEvent] at hQ ⊢

theorem WMFacts_pAWSbody (o : Oracle) (L C S fuel rfuel k : ℕ) :
    WMFacts (pAWSbody o L C S fuel rfuel k) := by
  unfold pAWSbody
  refine bind_WMFacts _ _ _ (WMFacts_studyLoop o S L fuel 0 k) (fun _ => ?_)
  refine bind_WMFacts _ _ _ (WMFacts_processLoop o C S L rfuel fuel 0 _ []) (fun acc => ?_)
  exact bind_WMFacts _ _ _ (WMFacts_tryRetrieve o C S true rfuel _ acc)
    (fun acc' => WMFacts_pure _ _)

theorem pAWSfin_apply (C k : ℕ) :
    pAWSfin C k =
      (Except.ok (), k, List.replicate C Event.freeEv ++ [Event.freeEv, Event.freeEv]) := by
  simp [pAWSfin]

theorem WMFacts_pAWS (o : Oracle) (L C S fuel rfuel k : ℕ) :
    WMFacts (processAudioWithStudy o L C S fuel rfuel k) := by
  have hbf := WMFacts_pAWSbody o L C S fuel rfuel k
  rcases hb : pAWSbody o L C S fuel rfuel k with ⟨rb, kb, eb⟩
  rw [hb] at hbf
  cases rb with
  | error er =>
      cases er with
      | diverged =>
          have hrun : processAudioWithStudy o L C S fuel rfuel k =
              (Except.error Err.diverged, kb,
                Event.mallocEv (C * 4) :: Event.mallocEv (C * 4) ::
                  (List.replicate C (Event.mallocEv (S * 4)) ++ eb)) := by
            simp [processAudioWithStudy, tryFinally, hb]
          rw [hrun]
          refine ⟨?_, ?_, ?_⟩
          · simp [List.countP_cons, List.countP_append, countP_replicate,
              isDelete, hbf.noDel]
          · simp [List.countP_cons, List.countP_append, countP_replicate,
              isNew, hbf.noNew]
          · intro h
            exact absurd rfl h
      | thrown m =>
          have hrun : processAudioWithStudy o L C S fuel rfuel k =
              (Except.error (Err.thrown m), kb,
                Event.mallocEv (C * 4) :: Event.mallocEv (C * 4) ::
                  (List.replicate C (Event.mallocEv (S * 4)) ++
                    (eb ++ (List.replicate C Event.freeEv ++
                      [Event.freeEv, Event.freeEv])))) := by
            simp [processAudioWithStudy, tryFinally, hb, pAWSfin_apply]
          rw [hrun]
          have hbal : bal eb := hbf.balOk (by simp)
          refine ⟨?_, ?_, ?_⟩
          · simp [List.countP_cons, List.countP_append, countP_replicate,
              isDelete, hbf.noDel]
          · simp [List.countP_cons, List.countP_append, countP_replicate,
              isNew, hbf.noNew]
          · intro _
            rw [bal] at hbal ⊢
            simp [List.countP_cons, List.countP_append, countP_replicate,
              isMalloc, isFree, hbal]
            omega
  | ok out =>
      have hrun : processAudioWithStudy o L C S fuel rfuel k =
          (Except.ok out, kb,
            Event.mallocEv (C * 4) :: Event.mallocEv (C * 4) ::
              (List.replicate C (Event.mallocEv (S * 4)) ++
                (eb ++ (List.replicate C Event.freeEv ++
                  [Event.freeEv, Event.freeEv])))) := by
        simp [processAudioWithStudy, tryFinally, hb, pAWSfin_apply]
      rw [hrun]
      have hbal : bal eb := hbf.balOk (by simp)
      refine ⟨?_, ?_, ?_⟩
      · simp [List.countP_cons, List.countP_append, countP_replicate,
          isDelete, hbf.noDel]
      · simp [List.countP_cons, List.countP_append, countP_replicate,
          isNew, hbf.noNew]
      · intro _
        rw [bal] at hbal ⊢
        simp [List.countP_cons, List.countP_append, countP_replicate,
          isMalloc, isFree, hbal]
        omega

theorem WMFacts_paBody (o : Oracle) (L C fuel rfuel k : ℕ) (pitchRatio : ℚ) :
    WMFacts (paBody o L C fuel rfuel pitchRatio k) := by
  unfold paBody
  refine bind_WMFacts _ _ _ (WMFacts_engCallU o _ k rfl rfl rfl rfl) (fun _ => ?_)
  refine bind_WMFacts _ _ _ (WMFacts_engCallU o _ _ rfl rfl rfl rfl) (fun _ => ?_)
  refine bind_WMFacts _ _ _ (WMFacts_engCallU o _ _ rfl rfl rfl rfl) (fun _ => ?_)
  refine bind_WMFacts _ _ _ (WMFacts_engCall o _ _ rfl rfl rfl rfl) (fun S => ?_)
  refine bind_WMFacts _ _ _ (WMFacts_engCallU o _ _ rfl rfl rfl rfl) (fun _ => ?_)
  refine bind_WMFacts _ _ _ (WMFacts_pAWS o L C S fuel rfuel _) (fun out => ?_)
  exact WMFacts_emit _ _ rfl rfl rfl rfl

theorem processAudio_lifecycle (o : Oracle) (audioData : List (List ℚ)) (sr : ℚ)
    (C : ℕ) (s : ℚ) (fuel rfuel k : ℕ)
    (hs : ¬ s = 0) (hf : o.fails k = none) (hh : ¬ o.newHandle = 0)
    (hnd : (processAudio o audioData sr C s fuel rfuel k).1 ≠ Except.error Err.diverged) :
    (runEv (processAudio o audioData sr C s fuel rfuel k)).countP isDelete = 1 ∧
    (runEv (processAudio o audioData sr C s fuel rfuel k)).countP isNew = 1 ∧
    bal (runEv (processAudio o audioData sr C s fuel rfuel k)) := by
  rcases hb : paBody o audioData.headI.length C fuel rfuel (o.pow2 (s / 12)) (k + 1)
    with ⟨rb, kb, eb⟩
  have hbf := WMFacts_paBody o audioData.headI.length C fuel rfuel (k + 1) (o.pow2 (s / 12))
  rw [hb] at hbf
  rcases hd : engCallU o Event.deleteCall kb with ⟨rd, kd, ed⟩
  have hed : ed = [Event.deleteCall] := by
    have h2 := engCall_ev o (fun _ => ((), Event.deleteCall)) kb
    rw [show engCallU o Event.deleteCall = engCall o (fun _ => ((), Event.deleteCall))
      from rfl] at hd
    rw [hd] at h2
    exact h2
  cases rb with
  | error er =>
      cases er with
      | diverged =>
          exfalso
          apply hnd
          simp [processAudio, hs, bind_apply, engCall_apply_ok o _ k hf, hh,
            tryFinally, hb]
      | thrown m =>
          have hev : runEv (processAudio o audioData sr C s fuel rfuel k) =
              Event.newCall ⌊sr⌋ C :: (eb ++ ed) := by
            cases rd <;>
              simp [processAudio, hs, runEv, bind_apply, engCall_apply_ok o _ k hf,
                hh, tryFinally, hb, hd]
          rw [hev, hed]
          have hbal : bal eb := hbf.balOk (by simp)
          refine ⟨?_, ?_, ?_⟩
          · simp [List.countP_cons, List.countP_append, isDelete, hbf.noDel]
          · simp [List.countP_cons, List.countP_append, isNew, hbf.noNew]
          · rw [bal] at hbal ⊢
            simp [List.countP_cons, List.countP_append, isMalloc, isFree, hbal]
  | ok u =>
      have hev : runEv (processAudio o audioData sr C s fuel rfuel k) =
          Event.newCall ⌊sr⌋ C :: (eb ++ ed) := by
        cases rd <;>
          simp [processAudio, hs, runEv, bind_apply, engCall_apply_ok o _ k hf,
            hh, tryFinally, hb, hd]
      rw [hev, hed]
      have hbal : bal eb := hbf.balOk (by simp)
      refine ⟨?_, ?_, ?_⟩
      · simp [List.countP_cons, List.countP_append, isDelete, hbf.noDel]
      · simp [List.countP_cons, List.countP_append, isNew, hbf.noNew]
      · rw [bal] at hbal ⊢
        simp [List.countP_cons, List.countP_append, isMalloc, isFree, hbal]

instance exceptDecEq {ε α : Type} [DecidableEq ε] [DecidableEq α] :
    DecidableEq (Except ε α) := fun x y =>
  match x, y with
  | Except.ok a, Except.ok b =>
      if h : a = b then Decidable.isTrue (by rw [h]) else Decidable.isFalse (by simp [h])
  | Except.error e, Except.error f =>
      if h : e = f then Decidable.isTrue (by rw [h]) else Decidable.isFalse (by simp [h])
  | Except.ok _, Except.error _ => Decidable.isFalse (by simp)
  | Except.error _, Except.ok _ => Decidable.isFalse (by simp)

/-! ## Claim C1 -/

/-- C1: for every request with semitones = 0 (hence pitch ratio 2^0 = 1, and
the worker's time ratio is always 1), processAudio immediately posts a
complete message carrying the input signal unchanged and emits no
rubberband_new call: no engine session is created. -/
theorem processAudio_zero_semitones_identity (o : Oracle) (audioData : List (List ℚ))
    (sampleRate : ℚ) (channels fuel rfuel k : ℕ) :
    processAudio o audioData sampleRate channels 0 fuel rfuel k =
      (Except.ok (), k, [Event.post (Msg.complete audioData)]) ∧
    (runEv (processAudio o audioData sampleRate channels 0 fuel rfuel k)).countP isNew = 0 := by
  have h : processAudio o audioData sampleRate channels 0 fuel rfuel k =
      (Except.ok (), k, [Event.post (Msg.complete audioData)]) := by
    simp [processAudio]
  exact ⟨h, by rw [runEv, h]; simp [List.countP_cons, isNew]⟩

/-! ## Claim C5 -/

/-- C5: for every request with a nonzero shift in which rubberband_new does
not throw and returns a nonzero handle, rubberband_delete is issued exactly
once, on every exit path of the request that leaves the pipeline (normal
completion or any exception thrown after creation); only an infinite loop
(divergence) is excluded. -/
theorem session_deleted_exactly_once (o : Oracle) (audioData : List (List ℚ))
    (sampleRate : ℚ) (channels : ℕ) (semitones : ℚ) (fuel rfuel k : ℕ)
    (hs : ¬ semitones = 0) (hf : o.fails k = none) (hh : ¬ o.newHandle = 0)
    (hnd : (processAudio o audioData sampleRate channels semitones fuel rfuel k).1 ≠
      Except.error Err.diverged) :
    (runEv (processAudio o audioData sampleRate channels semitones fuel rfuel k)).countP
      isDelete = 1 :=
  (processAudio_lifecycle o audioData sampleRate channels semitones fuel rfuel k
    hs hf hh hnd).1

def oW5 : Oracle where
  pow2 := fun _ => 1
  newHandle := 1
  samplesRequired := 1
  avail := fun _ => 0
  retr := fun _ => 0
  heap := fun _ _ _ => 0
  fails := fun _ => none

theorem session_deleted_exactly_once_witness :
    (runEv (processAudio oW5 [[0]] 44100 1 1 2 2 0)).countP isDelete = 1 :=
  session_deleted_exactly_once oW5 [[0]] 44100 1 1 2 2 0
    (by decide) (by decide) (by decide) (by decide)

/-! ## Claim C6 -/

def isStudy : Event → Bool
  | Event.studyCall _ _ _ => true
  | _ => false

def oW6 : Oracle where
  pow2 := fun _ => 1
  newHandle := 1
  samplesRequired := 1
  avail := fun _ => 0
  retr := fun _ => 0
  heap := fun _ _ _ => 0
  fails := fun _ => none

/-- C6 counterexample: in a two-chunk request (inputLength 2, samplesRequired
1) the trace has two study iterations, but between the first and the second
study call there is no _free and no _malloc event: input buffers are not
allocated at the start of each iteration nor released before the iteration
ends — they are allocated once before the loops and released once at request
end. -/
theorem study_iterations_not_scoped :
    ((runEv (processAudio oW6 [[0, 0]] 8000 1 1 2 2 0)).countP isStudy = 2) ∧
    (((((runEv (processAudio oW6 [[0, 0]] 8000 1 1 2 2 0)).dropWhile
        (fun e => !(isStudy e))).drop 1).takeWhile
        (fun e => !(isStudy e))).countP isFree = 0) ∧
    (((((runEv (processAudio oW6 [[0, 0]] 8000 1 1 2 2 0)).dropWhile
        (fun e => !(isStudy e))).drop 1).takeWhile
        (fun e => !(isStudy e))).countP isMalloc = 0) := by
  decide

/-- C6 (amended): the staging buffers are acquired once per request (two
pointer tables and one buffer per channel, allocated before the study pass)
and released by the request-final finally; output buffers are scoped inside
each retrieval iteration.  Consequently, for every request whose run
terminates (returns or throws — anything but an infinite loop), the total
number of arena allocations equals the total number of frees. -/
theorem arena_balanced (o : Oracle) (audioData : List (List ℚ)) (sampleRate : ℚ)
    (channels : ℕ) (semitones : ℚ) (fuel rfuel k : ℕ)
    (hnd : (processAudio o audioData sampleRate channels semitones fuel rfuel k).1 ≠
      Except.error Err.diverged) :
    ((runEv (processAudio o audioData sampleRate channels semitones fuel rfuel k)).countP
        isMalloc =
      (runEv (processAudio o audioData sampleRate channels semitones fuel rfuel k)).countP
        isFree) ∧
    (∀ L S kk, ∃ rest,
      runEv (processAudioWithStudy o L channels S fuel rfuel kk) =
        Event.mallocEv (channels * 4) :: Event.mallocEv (channels * 4) ::
          (List.replicate channels (Event.mallocEv (S * 4)) ++ rest)) := by
  constructor
  · by_cases hs : semitones = 0
    · subst hs
      have h : processAudio o audioData sampleRate channels 0 fuel rfuel k =
          (Except.ok (), k, [Event.post (Msg.complete audioData)]) := by
        simp [processAudio]
      rw [runEv, h]
      simp [List.countP_cons, isMalloc, isFree]
    · cases hfk : o.fails k with
      | some m =>
          have hev : runEv (processAudio o audioData sampleRate channels semitones
              fuel rfuel k) = [Event.newCall ⌊sampleRate⌋ channels] := by
            simp [processAudio, hs, runEv, bind_apply,
              engCall_apply_fail o _ k m hfk]
          rw [hev]
          simp [List.countP_cons, isMalloc, isFree]
      | none =>
          by_cases hh0 : o.newHandle = 0
          · have hev : runEv (processAudio o audioData sampleRate channels semitones
                fuel rfuel k) = [Event.newCall ⌊sampleRate⌋ channels] := by
              simp [processAudio, hs, runEv, bind_apply,
                engCall_apply_ok o _ k hfk, hh0]
            rw [hev]
            simp [List.countP_cons, isMalloc, isFree]
          · exact (processAudio_lifecycle o audioData sampleRate channels semitones
              fuel rfuel k hs hfk hh0 hnd).2.2
  · intro L S kk
    rcases htf : tryFinally (pAWSbody o L channels S fuel rfuel) (pAWSfin channels) kk
      with ⟨rt, kt, et⟩
    exact ⟨et, by simp [processAudioWithStudy, runEv, bind_apply, htf]⟩

theorem arena_balanced_witness :
    (runEv (processAudio oW6 [[0, 0]] 8000 1 1 2 2 0)).countP isMalloc =
      (runEv (processAudio oW6 [[0, 0]] 8000 1 1 2 2 0)).countP isFree :=
  (arena_balanced oW6 [[0, 0]] 8000 1 1 2 2 0 (by decide)).1

/-! ## Projections of traces onto engine calls and progress messages -/

theorem spc_nil_of_retr {l : List Event} (h : ∀ e ∈ l, retrEvent e = true) :
    studyProcessCalls l = [] := by
  rw [studyProcessCalls, List.filterMap_eq_nil_iff]
  intro e he
  have hr := h e he
  cases e <;> simp [retrEvent] at hr ⊢

theorem pv_nil_of_retr {l : List Event} (h : ∀ e ∈ l, retrEvent e = true) :
    progressValues l = [] := by
  rw [progressValues, List.filterMap_eq_nil_iff]
  intro e he
  have hr := h e he
  cases e <;> simp [retrEvent] at hr ⊢

theorem spc_append (l₁ l₂ : List Event) :
    studyProcessCalls (l₁ ++ l₂) = studyProcessCalls l₁ ++ studyProcessCalls l₂ := by
  simp [studyProcessCalls, List.filterMap_append]

theorem pv_append (l₁ l₂ : List Event) :
    progressValues (l₁ ++ l₂) = progressValues l₁ ++ progressValues l₂ := by
  simp [progressValues, List.filterMap_append]

theorem spc_studyEvents (L : ℕ) (cs : List Chunk) :
    studyProcessCalls ((cs.map (studyIterEvents L)).flatten) = cs.map Sum.inl := by
  induction cs with
  | nil => simp [studyProcessCalls]
  | cons c t ih =>
      simp only [List.map_cons, List.flatten_cons, spc_append, ih]
      simp [studyProcessCalls, studyIterEvents, List.filterMap_cons]

theorem pv_studyEvents (L : ℕ) (cs : List Chunk) :
    progressValues ((cs.map (studyIterEvents L)).flatten) =
      cs.map (fun c => ((c.offset + c.size : ℕ) : ℚ) / (L : ℚ) * 50) := by
  induction cs with
  | nil => simp [progressValues]
  | cons c t ih =>
      simp only [List.map_cons, List.flatten_cons, pv_append, ih]
      simp [progressValues, studyIterEvents, List.filterMap_cons]

theorem processLoop_run (o : Oracle) (ho : o.ok) (C S L rfuel : ℕ) :
    ∀ fuel read cs acc k r,
      chunksF S L fuel read = some cs →
      (processLoop o C S L rfuel fuel read acc k).1 = Except.ok r →
      studyProcessCalls (runEv (processLoop o C S L rfuel fuel read acc k)) =
        cs.map Sum.inr ∧
      progressValues (runEv (processLoop o C S L rfuel fuel read acc k)) =
        cs.map (fun c => 50 + ((c.offset + c.size : ℕ) : ℚ) / (L : ℚ) * 50) := by
  intro fuel
  induction fuel with
  | zero =>
      intro read cs acc k r hcs hok
      simp only [chunksF] at hcs
      split at hcs
      · exact absurd hcs (by simp)
      · cases hcs
        rename_i hge
        simp [processLoop, hge, runEv, studyProcessCalls, progressValues]
  | succ n ih =>
      intro read cs acc k r hcs hok
      simp only [chunksF] at hcs
      split at hcs
      · rename_i hlt
        cases hcrec : chunksF S L n (read + min S (L - read)) with
        | none => rw [hcrec] at hcs; cases hcs
        | some rest =>
            rw [hcrec] at hcs
            cases hcs
            rcases htr : tryRetrieveOutput o C S false rfuel acc (k + 1)
              with ⟨rtr, ktr, etr⟩
            have htrS := (tryRetrieve_facts o C S false rfuel acc (k + 1)).2
            rw [htr] at htrS
            simp only [runEv] at htrS
            cases rtr with
            | error er =>
                exfalso
                have hov : (processLoop o C S L rfuel (n + 1) read acc k).1 =
                    Except.error er := by
                  simp [processLoop, hlt, bind_apply, engCallU,
                    engCall_apply_ok o _ k (ho k), htr]
                rw [hov] at hok
                exact absurd hok (by simp)
            | ok acc' =>
                rcases hrec : processLoop o C S L rfuel n (read + min S (L - read)) acc' ktr
                  with ⟨rr, kr, er⟩
                have hov : processLoop o C S L rfuel (n + 1) read acc k =
                    (rr, kr, Event.processCall read (min S (L - read))
                        (decide (L ≤ read + min S (L - read))) ::
                      (etr ++ Event.post (Msg.progress (50 +
                        ((read + min S (L - read) : ℕ) : ℚ) / (L : ℚ) * 50)) :: er)) := by
                  simp [processLoop, hlt, bind_apply, engCallU,
                    engCall_apply_ok o _ k (ho k), htr, hrec]
                rw [hov] at hok ⊢
                simp only at hok
                have ihr := ih (read + min S (L - read)) rest acc' ktr r hcrec
                  (by rw [hrec]; simpa using hok)
                rw [hrec] at ihr
                simp only [runEv] at ihr ⊢
                have hspc : studyProcessCalls etr = [] := spc_nil_of_retr htrS
                have hpv : progressValues etr = [] := pv_nil_of_retr htrS
                constructor
                · have : studyProcessCalls (Event.processCall read (min S (L - read))
                      (decide (L ≤ read + min S (L - read))) ::
                      (etr ++ Event.post (Msg.progress (50 +
                        ((read + min S (L - read) : ℕ) : ℚ) / (L : ℚ) * 50)) :: er)) =
                      Sum.inr ⟨read, min S (L - read),
                        decide (L ≤ read + min S (L - read))⟩ :: studyProcessCalls er := by
                    have h2 : (Event.post (Msg.progress (50 +
                        ((read + min S (L - read) : ℕ) : ℚ) / (L : ℚ) * 50)) :: er) =
                        [Event.post (Msg.progress (50 +
                          ((read + min S (L - read) : ℕ) : ℚ) / (L : ℚ) * 50))] ++ er := rfl
                    rw [studyProcessCalls, List.filterMap_cons]
                    simp only
                    rw [h2, ← studyProcessCalls, spc_append, spc_append, hspc]
                    simp [studyProcessCalls]
                  rw [this, ihr.1]
                  simp
                · have : progressValues (Event.processCall read (min S (L - read))
                      (decide (L ≤ read + min S (L - read))) ::
                      (etr ++ Event.post (Msg.progress (50 +
                        ((read + min S (L - read) : ℕ) : ℚ) / (L : ℚ) * 50)) :: er)) =
                      (50 + ((read + min S (L - read) : ℕ) : ℚ) / (L : ℚ) * 50) ::
                        progressValues er := by
                    have h2 : (Event.post (Msg.progress (50 +
                        ((read + min S (L - read) : ℕ) : ℚ) / (L : ℚ) * 50)) :: er) =
                        [Event.post (Msg.progress (50 +
                          ((read + min S (L - read) : ℕ) : ℚ) / (L : ℚ) * 50))] ++ er := rfl
                    rw [progressValues, List.filterMap_cons]
                    simp only
                    rw [h2, ← progressValues, pv_append, pv_append, hpv]
                    simp [progressValues]
                  rw [this, ihr.2]
                  simp
      · cases hcs
        rename_i hge
        simp [processLoop, hge, runEv, studyProcessCalls, progressValues]

theorem pAWSbody_calls (o : Oracle) (ho : o.ok) (L C S fuel rfuel k : ℕ)
    (cs : List Chunk) (out : List (List ℚ))
    (hcs : chunksF S L fuel 0 = some cs)
    (hok : (pAWSbody o L C S fuel rfuel k).1 = Except.ok out) :
    studyProcessCalls (runEv (pAWSbody o L C S fuel rfuel k)) =
      cs.map Sum.inl ++ cs.map Sum.inr ∧
    progressValues (runEv (pAWSbody o L C S fuel rfuel k)) =
      cs.map (fun c => ((c.offset + c.size : ℕ) : ℚ) / (L : ℚ) * 50) ++
      cs.map (fun c => 50 + ((c.offset + c.size : ℕ) : ℚ) / (L : ℚ) * 50) := by
  have hsl := studyLoop_ok o ho S L fuel 0 cs k hcs
  rcases hpl : processLoop o C S L rfuel fuel 0 [] (k + cs.length) with ⟨rp, kp, ep⟩
  cases rp with
  | error er =>
      exfalso
      have hov : (pAWSbody o L C S fuel rfuel k).1 = Except.error er := by
        simp [pAWSbody, bind_apply, hsl, hpl]
      rw [hov] at hok
      exact absurd hok (by simp)
  | ok accP =>
      rcases hdr : tryRetrieveOutput o C S true rfuel accP kp with ⟨rd, kd, ed⟩
      have hdrS := (tryRetrieve_facts o C S true rfuel accP kp).2
      rw [hdr] at hdrS
      simp only [runEv] at hdrS
      cases rd with
      | error er =>
          exfalso
          have hov : (pAWSbody o L C S fuel rfuel k).1 = Except.error er := by
            simp [pAWSbody, bind_apply, hsl, hpl, hdr]
          rw [hov] at hok
          exact absurd hok (by simp)
      | ok accD =>
          have hev : runEv (pAWSbody o L C S fuel rfuel k) =
              (cs.map (studyIterEvents L)).flatten ++ (ep ++ ed) := by
            simp [pAWSbody, runEv, bind_apply, hsl, hpl, hdr]
          have hplR := processLoop_run o ho C S L rfuel fuel 0 cs [] (k + cs.length)
            accP hcs (by rw [hpl])
          rw [hpl] at hplR
          simp only [runEv] at hplR
          rw [hev]
          constructor
          · rw [spc_append, spc_append, spc_studyEvents, hplR.1, spc_nil_of_retr hdrS]
            simp
          · rw [pv_append, pv_append, pv_studyEvents, hplR.2, pv_nil_of_retr hdrS]
            simp

theorem pAWS_calls (o : Oracle) (ho : o.ok) (L C S fuel rfuel k : ℕ)
    (cs : List Chunk) (out : List (List ℚ))
    (hcs : chunksF S L fuel 0 = some cs)
    (hok : (processAudioWithStudy o L C S fuel rfuel k).1 = Except.ok out) :
    studyProcessCalls (runEv (processAudioWithStudy o L C S fuel rfuel k)) =
      cs.map Sum.inl ++ cs.map Sum.inr ∧
    progressValues (runEv (processAudioWithStudy o L C S fuel rfuel k)) =
      cs.map (fun c => ((c.offset + c.size : ℕ) : ℚ) / (L : ℚ) * 50) ++
      cs.map (fun c => 50 + ((c.offset + c.size : ℕ) : ℚ) / (L : ℚ) * 50) := by
  rcases hb : pAWSbody o L C S fuel rfuel k with ⟨rb, kb, eb⟩
  cases rb with
  | error er =>
      exfalso
      have hov : (processAudioWithStudy o L C S fuel rfuel k).1 = Except.error er := by
        cases er <;>
          simp [processAudioWithStudy, bind_apply, tryFinally, hb, pAWSfin_apply]
      rw [hov] at hok
      exact absurd hok (by simp)
  | ok out' =>
      have hev : runEv (processAudioWithStudy o L C S fuel rfuel k) =
          Event.mallocEv (C * 4) :: Event.mallocEv (C * 4) ::
            (List.replicate C (Event.mallocEv (S * 4)) ++
              (eb ++ (List.replicate C Event.freeEv ++ [Event.freeEv, Event.freeEv]))) := by
        simp [processAudioWithStudy, runEv, bind_apply, tryFinally, hb, pAWSfin_apply]
      have hbc := pAWSbody_calls o ho L C S fuel rfuel k cs out' hcs (by rw [hb])
      rw [hb] at hbc
      simp only [runEv] at hbc
      have hm1 : studyProcessCalls (List.replicate C (Event.mallocEv (S * 4))) = [] :=
        spc_nil_of_retr (by
          intro x hx
          rw [List.eq_of_mem_replicate hx]
          rfl)
      have hm2 : progressValues (List.replicate C (Event.mallocEv (S * 4))) = [] :=
        pv_nil_of_retr (by
          intro x hx
          rw [List.eq_of_mem_replicate hx]
          rfl)
      have hf1 : studyProcessCalls (List.replicate C Event.freeEv) = [] :=
        spc_nil_of_retr (by
          intro x hx
          rw [List.eq_of_mem_replicate hx]
          rfl)
      have hf2 : progressValues (List.replicate C Event.freeEv) = [] :=
        pv_nil_of_retr (by
          intro x hx
          rw [List.eq_of_mem_replicate hx]
          rfl)
      rw [hev]
      constructor
      · have h1 : studyProcessCalls (Event.mallocEv (C * 4) :: Event.mallocEv (C * 4) ::
            (List.replicate C (Event.mallocEv (S * 4)) ++
              (eb ++ (List.replicate C Event.freeEv ++ [Event.freeEv, Event.freeEv])))) =
            studyProcessCalls eb := by
          rw [studyProcessCalls, List.filterMap_cons, List.filterMap_cons]
          simp only
          rw [← studyProcessCalls, spc_append, spc_append, spc_append, hm1, hf1]
          simp [studyProcessCalls]
        rw [h1, hbc.1]
      · have h1 : progressValues (Event.mallocEv (C * 4) :: Event.mallocEv (C * 4) ::
            (List.replicate C (Event.mallocEv (S * 4)) ++
              (eb ++ (List.replicate C Event.freeEv ++ [Event.freeEv, Event.freeEv])))) =
            progressValues eb := by
          rw [progressValues, List.filterMap_cons, List.filterMap_cons]
          simp only
          rw [← progressValues, pv_append, pv_append, pv_append, hm2, hf2]
          simp [progressValues]
        rw [h1, hbc.2]

theorem processAudio_calls_progress (o : Oracle) (ho : o.ok)
    (audioData : List (List ℚ)) (sr : ℚ) (C : ℕ) (s : ℚ) (fuel rfuel k : ℕ)
    (hs : ¬ s = 0) (hh : ¬ o.newHandle = 0) (cs : List Chunk)
    (hcs : chunksF o.samplesRequired audioData.headI.length fuel 0 = some cs)
    (hok : (processAudio o audioData sr C s fuel rfuel k).1 = Except.ok ()) :
    studyProcessCalls (runEv (processAudio o audioData sr C s fuel rfuel k)) =
      cs.map Sum.inl ++ cs.map Sum.inr ∧
    progressValues (runEv (processAudio o audioData sr C s fuel rfuel k)) =
      cs.map (fun c => ((c.offset + c.size : ℕ) : ℚ) /
        ((audioData.headI.length : ℕ) : ℚ) * 50) ++
      cs.map (fun c => 50 + ((c.offset + c.size : ℕ) : ℚ) /
        ((audioData.headI.length : ℕ) : ℚ) * 50) := by
  have hcall : ∀ {α : Type} (f : ℕ → α × Event) (kk : ℕ),
      engCall o f kk = (Except.ok (f kk).1, kk + 1, [(f kk).2]) :=
    fun f kk => engCall_apply_ok o f kk (ho kk)
  have hcu : ∀ (e : Event) (kk : ℕ), engCallU o e kk = (Except.ok (), kk + 1, [e]) :=
    fun e kk => engCallU_apply_ok o e kk (ho kk)
  rcases hw : processAudioWithStudy o audioData.headI.length C o.samplesRequired
    fuel rfuel (k + 6) with ⟨rw_, kw, ew⟩
  cases rw_ with
  | error er =>
      exfalso
      have hov : (processAudio o audioData sr C s fuel rfuel k).1 = Except.error er := by
        cases er <;>
          simp [processAudio, paBody, hs, bind_apply, hcall, hcu, hh, tryFinally, hw]
      rw [hov] at hok
      exact absurd hok (by simp)
  | ok out =>
      have hev : runEv (processAudio o audioData sr C s fuel rfuel k) =
          Event.newCall ⌊sr⌋ C :: Event.setTimeRatioCall 1 ::
            Event.setPitchScaleCall (o.pow2 (s / 12)) ::
            Event.setExpectedDurationCall audioData.headI.length ::
            Event.samplesRequiredCall o.samplesRequired ::
            Event.setMaxProcessSizeCall o.samplesRequired ::
            (ew ++ [Event.post (Msg.complete out), Event.deleteCall]) := by
        simp [processAudio, paBody, hs, runEv, bind_apply, hcall, hcu, hh,
          tryFinally, hw]
      have hwc := pAWS_calls o ho audioData.headI.length C o.samplesRequired
        fuel rfuel (k + 6) cs out hcs (by rw [hw])
      rw [hw] at hwc
      simp only [runEv] at hwc
      rw [hev]
      constructor
      · have h1 : studyProcessCalls (Event.newCall ⌊sr⌋ C :: Event.setTimeRatioCall 1 ::
            Event.setPitchScaleCall (o.pow2 (s / 12)) ::
            Event.setExpectedDurationCall audioData.headI.length ::
            Event.samplesRequiredCall o.samplesRequired ::
            Event.setMaxProcessSizeCall o.samplesRequired ::
            (ew ++ [Event.post (Msg.complete out), Event.deleteCall])) =
            studyProcessCalls ew := by
          rw [studyProcessCalls, List.filterMap_cons, List.filterMap_cons,
            List.filterMap_cons, List.filterMap_cons, List.filterMap_cons,
            List.filterMap_cons]
          simp only
          rw [← studyProcessCalls, spc_append]
          simp [studyProcessCalls]
        rw [h1, hwc.1]
      · have h1 : progressValues (Event.newCall ⌊sr⌋ C :: Event.setTimeRatioCall 1 ::
            Event.setPitchScaleCall (o.pow2 (s / 12)) ::
            Event.setExpectedDurationCall audioData.headI.length ::
            Event.samplesRequiredCall o.samplesRequired ::
            Event.setMaxProcessSizeCall o.samplesRequired ::
            (ew ++ [Event.post (Msg.complete out), Event.deleteCall])) =
            progressValues ew := by
          rw [progressValues, List.filterMap_cons, List.filterMap_cons,
            List.filterMap_cons, List.filterMap_cons, List.filterMap_cons,
            List.filterMap_cons]
          simp only
          rw [← progressValues, pv_append]
          simp [progressValues]
        rw [h1, hwc.2]

/-! ## Pure facts about the chunk ends (read positions after each iteration) -/

theorem chunkSeq_ends_sorted {S L : ℕ} (hS : 1 ≤ S) :
    ∀ {read cs}, ChunkSeq S L read cs →
      List.Chain' (· < ·) (cs.map (fun c => c.offset + c.size)) := by
  intro read cs h
  induction h with
  | nil => simp
  | cons read h rest hr ih =>
      cases hr with
      | nil hge => simp
      | cons r' h' rest2 hr2 =>
          simp only [List.map_cons, List.chain'_cons] at ih ⊢
          refine ⟨?_, ih⟩
          show read + min S (L - read) <
            (read + min S (L - read)) + min S (L - (read + min S (L - read)))
          omega

theorem chunkSeq_last_end {S L : ℕ} :
    ∀ {read cs}, ChunkSeq S L read cs →
      ∀ c, cs.getLast? = some c → c.offset + c.size = L := by
  intro read cs h
  induction h with
  | nil => intro c hc; simp at hc
  | cons read h rest hr ih =>
      intro c hc
      cases rest with
      | nil =>
          simp at hc
          cases hr with
          | nil hge =>
              rw [← hc]
              simp only
              omega
      | cons c2 t =>
          rw [List.getLast?_cons_cons] at hc
          exact ih c hc

theorem chunkSeq_ne_nil {S L : ℕ} (hL : 0 < L) :
    ∀ {cs}, ChunkSeq S L 0 cs → cs ≠ [] := by
  intro cs h
  cases h with
  | nil hge => omega
  | cons h rest hr => simp

/-! ## Claim C3 -/

/-- C3: in a completed request (nonzero shift, failure-free engine, nonzero
handle), the interleaving of study and process calls is exactly the chunk
list twice: all study calls first, in chunk order, then the process calls
repeating the identical sequence (so process starts only after the final
study call).  The chunk list has offsets 0, S, 2S, ..., lengths
min(S, L - offset), covers the whole input, and isFinal holds exactly on the
chunk whose end reaches L, which is exactly the last chunk. -/
theorem chunk_call_discipline (o : Oracle) (audioData : List (List ℚ)) (sr : ℚ)
    (C : ℕ) (s : ℚ) (fuel rfuel k : ℕ) (cs : List Chunk)
    (ho : o.ok) (hs : ¬ s = 0) (hh : ¬ o.newHandle = 0)
    (hok : (processAudio o audioData sr C s fuel rfuel k).1 = Except.ok ())
    (hcs : chunksF o.samplesRequired audioData.headI.length fuel 0 = some cs) :
    studyProcessCalls (runEv (processAudio o audioData sr C s fuel rfuel k)) =
      cs.map Sum.inl ++ cs.map Sum.inr ∧
    (∀ j (hj : j < cs.length), (cs.get ⟨j, hj⟩).offset = j * o.samplesRequired) ∧
    (∀ c ∈ cs, c.size = min o.samplesRequired (audioData.headI.length - c.offset)) ∧
    ((cs.map Chunk.size).sum = audioData.headI.length) ∧
    (∀ c ∈ cs, (c.isFinal = true ↔ c.offset + c.size = audioData.headI.length)) ∧
    (∀ j (hj : j < cs.length), ((cs.get ⟨j, hj⟩).isFinal = true ↔ j = cs.length - 1)) := by
  have hseq := chunksF_sound hcs
  refine ⟨(processAudio_calls_progress o ho audioData sr C s fuel rfuel k hs hh cs
    hcs hok).1, ?_, ?_, ?_, ?_, ?_⟩
  · intro j hj
    have h := chunkSeq_offsets hseq j hj
    simpa using h
  · intro c hc
    exact (chunkSeq_sizes hseq c hc).1
  · have h := chunkSeq_sum hseq
    simpa using h
  · intro c hc
    exact chunkSeq_final hseq c hc
  · exact chunkSeq_final_last hseq

def oW3 : Oracle where
  pow2 := fun _ => 1
  newHandle := 1
  samplesRequired := 1
  avail := fun _ => 0
  retr := fun _ => 0
  heap := fun _ _ _ => 0
  fails := fun _ => none

theorem chunk_call_discipline_witness :
    studyProcessCalls (runEv (processAudio oW3 [[0, 0]] 8000 1 1 2 2 0)) =
      ([⟨0, 1, false⟩, ⟨1, 1, true⟩] : List Chunk).map Sum.inl ++
        ([⟨0, 1, false⟩, ⟨1, 1, true⟩] : List Chunk).map Sum.inr :=
  (chunk_call_discipline oW3 [[0, 0]] 8000 1 1 2 2 0 [⟨0, 1, false⟩, ⟨1, 1, true⟩]
    (fun _ => rfl) (by decide) (by decide) (by decide) (by decide)).1

/-! ## Claim C2 -/

theorem getLast?_map' {α β : Type} (f : α → β) (l : List α) :
    (l.map f).getLast? = l.getLast?.map f := by
  induction l with
  | nil => rfl
  | cons a t ih =>
      cases t with
      | nil => rfl
      | cons b t2 => simpa [List.getLast?_cons_cons] using ih

theorem progress_pure (S L : ℕ) (hS : 1 ≤ S) (hL : 0 < L) (cs : List Chunk)
    (hseq : ChunkSeq S L 0 cs) :
    List.Chain' (· ≤ ·)
      (cs.map (fun c => ((c.offset + c.size : ℕ) : ℚ) / (L : ℚ) * 50) ++
        cs.map (fun c => 50 + ((c.offset + c.size : ℕ) : ℚ) / (L : ℚ) * 50)) ∧
    (∀ p ∈ cs.map (fun c => ((c.offset + c.size : ℕ) : ℚ) / (L : ℚ) * 50) ++
        cs.map (fun c => 50 + ((c.offset + c.size : ℕ) : ℚ) / (L : ℚ) * 50),
      0 ≤ p ∧ p ≤ 100) ∧
    (cs.map (fun c => ((c.offset + c.size : ℕ) : ℚ) / (L : ℚ) * 50)).getLast? =
      some 50 ∧
    (cs.map (fun c => ((c.offset + c.size : ℕ) : ℚ) / (L : ℚ) * 50) ++
      cs.map (fun c => 50 + ((c.offset + c.size : ℕ) : ℚ) / (L : ℚ) * 50)).getLast? =
      some 100 := by
  have hL' : (0 : ℚ) < (L : ℚ) := by exact_mod_cast hL
  have hbound : ∀ c ∈ cs, c.offset + c.size ≤ L :=
    fun c hc => (chunkSeq_sizes hseq c hc).2
  have hne : cs ≠ [] := chunkSeq_ne_nil hL hseq
  have hsor := chunkSeq_ends_sorted hS hseq
  rw [List.chain'_map] at hsor
  have hf0 : ∀ c ∈ cs, 0 ≤ ((c.offset + c.size : ℕ) : ℚ) / (L : ℚ) * 50 := by
    intro c hc
    positivity
  have hf50 : ∀ c ∈ cs, ((c.offset + c.size : ℕ) : ℚ) / (L : ℚ) * 50 ≤ 50 := by
    intro c hc
    have hx : ((c.offset + c.size : ℕ) : ℚ) ≤ (L : ℚ) := by
      exact_mod_cast hbound c hc
    rw [div_mul_eq_mul_div, div_le_iff₀ hL']
    nlinarith
  have hmono : ∀ a b : Chunk,
      a.offset + a.size < b.offset + b.size →
        ((a.offset + a.size : ℕ) : ℚ) / (L : ℚ) * 50 ≤
          ((b.offset + b.size : ℕ) : ℚ) / (L : ℚ) * 50 := by
    intro a b hab
    have h1 : ((a.offset + a.size : ℕ) : ℚ) ≤ ((b.offset + b.size : ℕ) : ℚ) := by
      exact_mod_cast le_of_lt hab
    gcongr
  have hchainS : List.Chain' (· ≤ ·)
      (cs.map (fun c => ((c.offset + c.size : ℕ) : ℚ) / (L : ℚ) * 50)) := by
    rw [List.chain'_map]
    exact hsor.imp (fun a b hab => hmono a b hab)
  have hchainP : List.Chain' (· ≤ ·)
      (cs.map (fun c => 50 + ((c.offset + c.size : ℕ) : ℚ) / (L : ℚ) * 50)) := by
    rw [List.chain'_map]
    exact hsor.imp (fun a b hab => by
      have := hmono a b hab
      linarith)
  obtain ⟨cl, hcl⟩ : ∃ cl, cs.getLast? = some cl := by
    cases hq : cs.getLast? with
    | none => exact absurd (List.getLast?_eq_none_iff.mp hq) hne
    | some cl => exact ⟨cl, rfl⟩
  have hclL : cl.offset + cl.size = L := chunkSeq_last_end hseq cl hcl
  have hlastS : (cs.map (fun c => ((c.offset + c.size : ℕ) : ℚ) / (L : ℚ) * 50)).getLast? =
      some 50 := by
    rw [getLast?_map', hcl]
    show some (((cl.offset + cl.size : ℕ) : ℚ) / (L : ℚ) * 50) = some 50
    rw [hclL, div_self (ne_of_gt hL')]
    norm_num
  have hlastP : (cs.map
      (fun c => 50 + ((c.offset + c.size : ℕ) : ℚ) / (L : ℚ) * 50)).getLast? =
      some 100 := by
    rw [getLast?_map', hcl]
    show some (50 + ((cl.offset + cl.size : ℕ) : ℚ) / (L : ℚ) * 50) = some 100
    rw [hclL, div_self (ne_of_gt hL')]
    norm_num
  have hPne : cs.map (fun c => 50 + ((c.offset + c.size : ℕ) : ℚ) / (L : ℚ) * 50) ≠ [] := by
    simp [hne]
  refine ⟨?_, ?_, hlastS, ?_⟩
  · rw [List.chain'_append]
    refine ⟨hchainS, hchainP, ?_⟩
    intro x hx y hy
    rw [hlastS] at hx
    simp at hx
    subst hx
    rw [List.head?_map] at hy
    rcases hhd : cs.head? with _ | ⟨c0⟩
    · rw [hhd] at hy
      simp at hy
    · rw [hhd] at hy
      simp at hy
      have h0 := hf0 c0 (List.mem_of_mem_head? (by rw [hhd]; rfl))
      push_cast at h0
      linarith [hy, h0]
  · intro p hp
    rw [List.mem_append] at hp
    rcases hp with hp | hp
    · rw [List.mem_map] at hp
      obtain ⟨c, hc, hcp⟩ := hp
      subst hcp
      exact ⟨hf0 c hc, le_trans (hf50 c hc) (by norm_num)⟩
    · rw [List.mem_map] at hp
      obtain ⟨c, hc, hcp⟩ := hp
      subst hcp
      have h0 := hf0 c hc
      have h50 := hf50 c hc
      constructor <;> linarith
  · rw [List.getLast?_append_of_ne_nil _ hPne, hlastP]

/-- C2: for every completed request (nonzero shift, failure-free engine,
nonzero handle, run returned), the posted progress values are exactly the
study-pass values (read/inputLength)*50 followed by the process-pass values
50 + (read/inputLength)*50, taken at the successive read positions; the whole
sequence is non-decreasing, every value lies in [0, 100], the study pass's
last value is exactly 50, and the request's last value is exactly 100. -/
theorem progress_monotone_complete (o : Oracle) (audioData : List (List ℚ)) (sr : ℚ)
    (C : ℕ) (s : ℚ) (fuel rfuel k : ℕ) (cs : List Chunk)
    (ho : o.ok) (hs : ¬ s = 0) (hh : ¬ o.newHandle = 0)
    (hok : (processAudio o audioData sr C s fuel rfuel k).1 = Except.ok ())
    (hcs : chunksF o.samplesRequired audioData.headI.length fuel 0 = some cs)
    (hS : 1 ≤ o.samplesRequired) (hL : 0 < audioData.headI.length) :
    progressValues (runEv (processAudio o audioData sr C s fuel rfuel k)) =
      cs.map (fun c => ((c.offset + c.size : ℕ) : ℚ) /
        ((audioData.headI.length : ℕ) : ℚ) * 50) ++
      cs.map (fun c => 50 + ((c.offset + c.size : ℕ) : ℚ) /
        ((audioData.headI.length : ℕ) : ℚ) * 50) ∧
    List.Chain' (· ≤ ·)
      (progressValues (runEv (processAudio o audioData sr C s fuel rfuel k))) ∧
    (∀ p ∈ progressValues (runEv (processAudio o audioData sr C s fuel rfuel k)),
      0 ≤ p ∧ p ≤ 100) ∧
    (cs.map (fun c => ((c.offset + c.size : ℕ) : ℚ) /
      ((audioData.headI.length : ℕ) : ℚ) * 50)).getLast? = some 50 ∧
    (progressValues (runEv (processAudio o audioData sr C s fuel rfuel k))).getLast? =
      some 100 := by
  have hpv := (processAudio_calls_progress o ho audioData sr C s fuel rfuel k
    hs hh cs hcs hok).2
  have hpure := progress_pure o.samplesRequired audioData.headI.length hS hL cs
    (chunksF_sound hcs)
  rw [hpv]
  exact ⟨rfl, hpure.1, hpure.2.1, hpure.2.2.1, hpure.2.2.2⟩

def oW2 : Oracle where
  pow2 := fun _ => 1
  newHandle := 1
  samplesRequired := 1
  avail := fun _ => 0
  retr := fun _ => 0
  heap := fun _ _ _ => 0
  fails := fun _ => none

theorem progress_monotone_complete_witness :
    (progressValues (runEv (processAudio oW2 [[0, 0]] 8000 1 1 2 2 0))).getLast? =
      some 100 :=
  (progress_monotone_complete oW2 [[0, 0]] 8000 1 1 2 2 0 [⟨0, 1, false⟩, ⟨1, 1, true⟩]
    (fun _ => rfl) (by decide) (by decide) (by decide) (by decide)
    (by decide) (by decide)).2.2.2.2

/-! ## Claim C10 -/

theorem tryRetrieve_ok_or_diverged (o : Oracle) (ho : o.ok) (C S : ℕ) (fin : Bool) :
    ∀ fuel (acc : List OutChunk) k,
      (tryRetrieveOutput o C S fin fuel acc k).1 = Except.error Err.diverged ∨
      ∃ r, (tryRetrieveOutput o C S fin fuel acc k).1 = Except.ok r := by
  intro fuel
  induction fuel with
  | zero => intro acc k; left; rfl
  | succ n ih =>
      intro acc k
      by_cases h1 : o.avail k < 1
      · right
        exact ⟨acc, by rw [tryRetrieve_break0 o C S fin n k acc (ho k) h1]⟩
      · by_cases h2 : (!fin && decide (o.avail k < S)) = true
        · right
          exact ⟨acc, by rw [tryRetrieve_breakS o C S fin n k acc (ho k) h1 h2]⟩
        · rw [Bool.not_eq_true] at h2
          have hrec := ih (retrStep o C (k + 1) acc) (k + 1 + 1)
          rw [tryRetrieve_iter o C S fin n k acc (ho k) h1 h2 (ho (k + 1))]
          simpa using hrec

theorem studyLoop_zeroS (o : Oracle) (ho : o.ok) (L : ℕ) (hL : 1 ≤ L) :
    ∀ fuel k, (studyLoop o 0 L fuel 0 k).1 = Except.error Err.diverged := by
  intro fuel
  induction fuel with
  | zero => intro k; simp [studyLoop, show 0 < L by omega]
  | succ n ih =>
      intro k
      have ihk := ih (k + 1)
      rcases hrec : studyLoop o 0 L n 0 (k + 1) with ⟨rr, kr, er⟩
      rw [hrec] at ihk
      simp only at ihk
      simp [studyLoop, show 0 < L by omega, bind_apply, engCallU,
        engCall_apply_ok o _ k (ho k), hrec, ihk]

theorem processLoop_zeroS (o : Oracle) (ho : o.ok) (C L rfuel : ℕ) (hL : 1 ≤ L) :
    ∀ fuel (acc : List OutChunk) k,
      (processLoop o C 0 L rfuel fuel 0 acc k).1 = Except.error Err.diverged := by
  intro fuel
  induction fuel with
  | zero => intro acc k; simp [processLoop, show 0 < L by omega]
  | succ n ih =>
      intro acc k
      rcases htr : tryRetrieveOutput o C 0 false rfuel acc (k + 1) with ⟨rtr, ktr, etr⟩
      have hdi := tryRetrieve_ok_or_diverged o ho C 0 false rfuel acc (k + 1)
      rw [htr] at hdi
      simp only at hdi
      cases rtr with
      | error er =>
          have her : er = Err.diverged := by
            rcases hdi with hdi | ⟨r, hdi⟩
            · injection hdi
            · cases hdi
          subst her
          simp [processLoop, show 0 < L by omega, bind_apply, engCallU,
            engCall_apply_ok o _ k (ho k), htr]
      | ok acc' =>
          have ihk := ih acc' ktr
          rcases hrec : processLoop o C 0 L rfuel n 0 acc' ktr with ⟨rr, kr, er⟩
          rw [hrec] at ihk
          simp only at ihk
          simp [processLoop, show 0 < L by omega, bind_apply, engCallU,
            engCall_apply_ok o _ k (ho k), htr, hrec, ihk]

/-- C10: the chunk loops terminate only under the unchecked precondition
samplesRequired ≥ 1.  With S ≥ 1 and enough fuel the loop runs exactly
⌈L/S⌉ = (L+S-1)/S iterations, with read strictly increasing to L (ends of
the chunks), and the study loop completes, its engine-call counter advancing
by exactly the iteration count.  With the engine-reported S = 0 — which the
code never checks — both loops never complete for any fuel (the JS while
loop never exits). -/
theorem chunk_loop_termination :
    (∀ L S fuel, 1 ≤ S → L ≤ fuel →
      ∃ cs, chunksF S L fuel 0 = some cs ∧
        cs.length = (L + S - 1) / S ∧
        List.Chain' (· < ·) (cs.map (fun c => c.offset + c.size)) ∧
        (0 < L → (cs.map (fun c => c.offset + c.size)).getLast? = some L) ∧
        (∀ o : Oracle, o.ok → ∀ k,
          studyLoop o S L fuel 0 k =
            (Except.ok (), k + cs.length, (cs.map (studyIterEvents L)).flatten))) ∧
    (∀ (o : Oracle), o.ok → ∀ L, 1 ≤ L →
      ∀ C rfuel fuel k (acc : List OutChunk),
        (studyLoop o 0 L fuel 0 k).1 = Except.error Err.diverged ∧
        (processLoop o C 0 L rfuel fuel 0 acc k).1 = Except.error Err.diverged) := by
  constructor
  · intro L S fuel hS hfuel
    have hsome : (chunksF S L fuel 0).isSome :=
      chunksF_complete hS fuel 0 (by omega)
    obtain ⟨cs, hcs⟩ := Option.isSome_iff_exists.mp hsome
    have hseq := chunksF_sound hcs
    refine ⟨cs, hcs, ?_, chunkSeq_ends_sorted hS hseq, ?_, ?_⟩
    · have h := chunkSeq_length hS hseq
      simpa using h
    · intro hL
      have hne : cs ≠ [] := chunkSeq_ne_nil hL hseq
      obtain ⟨cl, hcl⟩ : ∃ cl, cs.getLast? = some cl := by
        cases hq : cs.getLast? with
        | none => exact absurd (List.getLast?_eq_none_iff.mp hq) hne
        | some cl => exact ⟨cl, rfl⟩
      rw [getLast?_map', hcl]
      show some (cl.offset + cl.size) = some L
      rw [chunkSeq_last_end hseq cl hcl]
    · intro o ho k
      exact studyLoop_ok o ho S L fuel 0 cs k hcs
  · intro o ho L hL C rfuel fuel k acc
    exact ⟨studyLoop_zeroS o ho L hL fuel k,
      processLoop_zeroS o ho C L rfuel hL fuel acc k⟩

def oW10 : Oracle where
  pow2 := fun _ => 1
  newHandle := 1
  samplesRequired := 0
  avail := fun _ => 0
  retr := fun _ => 0
  heap := fun _ _ _ => 0
  fails := fun _ => none

theorem chunk_loop_termination_witness :
    (studyLoop oW10 0 3 5 0 0).1 = Except.error Err.diverged ∧
    (processLoop oW10 1 0 3 5 5 0 [] 0).1 = Except.error Err.diverged :=
  chunk_loop_termination.2 oW10 (fun _ => rfl) 3 (by decide) 1 5 5 0 []

/-! ## Claim C7: the output accumulator -/

/-- Well-formed output chunk: one array per session channel, and all channel
arrays of the chunk share the length of chunk[0]. -/
def chunkWF (C : ℕ) (chunk : OutChunk) : Bool :=
  chunk.length == C && chunk.all (fun d => d.length == chunk.headI.length)

def chunksWF (C : ℕ) (l : List OutChunk) : Bool := l.all (chunkWF C)

theorem chunkWF_fresh (C r : ℕ) (g : ℕ → ℕ → ℚ) :
    chunkWF C ((List.range C).map (fun ch => (List.range r).map (g ch))) = true := by
  cases C with
  | zero => simp [chunkWF]
  | succ m =>
      simp only [chunkWF, Bool.and_eq_true, beq_iff_eq]
      constructor
      · simp
      · rw [List.all_eq_true]
        intro d hd
        simp only [List.mem_map] at hd
        obtain ⟨ch, hch, hde⟩ := hd
        subst hde
        simp [List.range_succ_eq_map, List.headI]

theorem tryRetrieve_WF (o : Oracle) (C S : ℕ) (fin : Bool) :
    ∀ fuel (acc : List OutChunk) k r,
      (tryRetrieveOutput o C S fin fuel acc k).1 = Except.ok r →
      chunksWF C acc = true → chunksWF C r = true := by
  intro fuel
  induction fuel with
  | zero =>
      intro acc k r hok hWF
      exact absurd hok (by simp [tryRetrieveOutput])
  | succ n ih =>
      intro acc k r hok hWF
      cases hf : o.fails k with
      | some m =>
          rw [tryRetrieve_failAvail o C S fin n k acc m hf] at hok
          exact absurd hok (by simp)
      | none =>
          by_cases h1 : o.avail k < 1
          · rw [tryRetrieve_break0 o C S fin n k acc hf h1] at hok
            simp at hok
            subst hok
            exact hWF
          · by_cases h2 : (!fin && decide (o.avail k < S)) = true
            · rw [tryRetrieve_breakS o C S fin n k acc hf h1 h2] at hok
              simp at hok
              subst hok
              exact hWF
            · rw [Bool.not_eq_true] at h2
              cases hf2 : o.fails (k + 1) with
              | some m2 =>
                  rw [tryRetrieve_failRetr o C S fin n k acc m2 hf h1 h2 hf2] at hok
                  exact absurd hok (by simp)
              | none =>
                  rw [tryRetrieve_iter o C S fin n k acc hf h1 h2 hf2] at hok
                  simp only at hok
                  refine ih (retrStep o C (k + 1) acc) (k + 1 + 1) r hok ?_
                  rw [retrStep]
                  by_cases h3 : o.retr (k + 1) > 0
                  · simp only [h3, if_true]
                    simp only [chunksWF, List.all_append, Bool.and_eq_true] at hWF ⊢
                    exact ⟨hWF, by simp [chunkWF_fresh]⟩
                  · simp only [h3, if_false]
                    exact hWF

theorem processLoop_WF (o : Oracle) (C S L rfuel : ℕ) :
    ∀ fuel read (acc : List OutChunk) k r,
      (processLoop o C S L rfuel fuel read acc k).1 = Except.ok r →
      chunksWF C acc = true → chunksWF C r = true := by
  intro fuel
  induction fuel with
  | zero =>
      intro read acc k r hok hWF
      by_cases hlt : read < L
      · exact absurd hok (by simp [processLoop, hlt])
      · have : r = acc := by
          rw [show (processLoop o C S L rfuel 0 read acc k).1 = Except.ok acc by
            simp [processLoop, hlt]] at hok
          injection hok with h
          exact h.symm
        rw [this]
        exact hWF
  | succ n ih =>
      intro read acc k r hok hWF
      by_cases hlt : read < L
      · cases hf : o.fails k with
        | some m =>
            exfalso
            have : (processLoop o C S L rfuel (n + 1) read acc k).1 =
                Except.error (Err.thrown m) := by
              simp [processLoop, hlt, bind_apply, engCallU,
                engCall_apply_fail o _ k m hf]
            rw [this] at hok
            exact absurd hok (by simp)
        | none =>
            rcases htr : tryRetrieveOutput o C S false rfuel acc (k + 1)
              with ⟨rtr, ktr, etr⟩
            cases rtr with
            | error er =>
                exfalso
                have : (processLoop o C S L rfuel (n + 1) read acc k).1 =
                    Except.error er := by
                  simp [processLoop, hlt, bind_apply, engCallU,
                    engCall_apply_ok o _ k hf, htr]
                rw [this] at hok
                exact absurd hok (by simp)
            | ok acc' =>
                have hWF' : chunksWF C acc' = true :=
                  tryRetrieve_WF o C S false rfuel acc (k + 1) acc' (by rw [htr]) hWF
                rcases hrec : processLoop o C S L rfuel n (read + min S (L - read)) acc' ktr
                  with ⟨rr, kr, er⟩
                have : (processLoop o C S L rfuel (n + 1) read acc k).1 = rr := by
                  simp [processLoop, hlt, bind_apply, engCallU,
                    engCall_apply_ok o _ k hf, htr, hrec]
                rw [this] at hok
                exact ih (read + min S (L - read)) acc' ktr r (by rw [hrec]; exact hok) hWF'
      · have : r = acc := by
          rw [show (processLoop o C S L rfuel (n + 1) read acc k).1 = Except.ok acc by
            simp [processLoop, hlt]] at hok
          injection hok with h
          exact h.symm
        rw [this]
        exact hWF

theorem drop_replicate' {α : Type} (a : α) (n m : ℕ) :
    (List.replicate n a).drop m = List.replicate (n - m) a := by
  induction m generalizing n with
  | zero => simp
  | succ j ih =>
      cases n with
      | zero => simp
      | succ i =>
          rw [List.replicate_succ, List.drop_succ_cons, ih]
          congr 1
          omega

theorem chunkWF_getD_length (C : ℕ) (chunk : OutChunk) (ch : ℕ)
    (hch : ch < C) (hWF : chunkWF C chunk = true) :
    (chunk.getD ch []).length = chunk.headI.length := by
  simp only [chunkWF, Bool.and_eq_true, beq_iff_eq, List.all_eq_true] at hWF
  have hlt : ch < chunk.length := by omega
  have h3 : chunk.getD ch [] = chunk.get ⟨ch, hlt⟩ := by
    simp [List.getD_eq_getElem?_getD, List.getElem?_eq_getElem hlt]
  have hmem : chunk.get ⟨ch, hlt⟩ ∈ chunk := List.get_mem chunk ch hlt
  have h4 := hWF.2 _ hmem
  rw [h3]
  simpa using h4

theorem combineChannel_fold (C ch : ℕ) (hch : ch < C) :
    ∀ (chunks : List OutChunk) (pre : List ℚ),
      chunksWF C chunks = true →
      (chunks.foldl
        (fun (acc : List ℚ × ℕ) chunk =>
          (wl acc.1 acc.2 (chunk.getD ch []), acc.2 + (chunk.getD ch []).length))
        (pre ++ List.replicate (totalLen chunks) 0, pre.length)).1 =
      pre ++ (chunks.map (fun chunk => chunk.getD ch [])).flatten := by
  intro chunks
  induction chunks with
  | nil => intro pre hWF; simp [totalLen]
  | cons chunk rest ih =>
      intro pre hWF
      simp only [chunksWF, List.all_cons, Bool.and_eq_true] at hWF
      have hlen : (chunk.getD ch []).length = chunk.headI.length :=
        chunkWF_getD_length C chunk ch hch hWF.1
      have hT : totalLen (chunk :: rest) =
          (chunk.getD ch []).length + totalLen rest := by
        have hT0 : totalLen (chunk :: rest) = chunk.headI.length + totalLen rest := by
          simp [totalLen]
        rw [hT0, hlen]
      simp only [List.foldl_cons]
      rw [hT, List.replicate_add]
      have hw : wl (pre ++ (List.replicate (chunk.getD ch []).length 0 ++
          List.replicate (totalLen rest) 0)) pre.length (chunk.getD ch []) =
          (pre ++ chunk.getD ch []) ++ List.replicate (totalLen rest) 0 := by
        rw [wl_append, wl_zero_of_le _ _ (by simp),
          List.drop_left' (by simp : (List.replicate (chunk.getD ch []).length
            (0 : ℚ)).length = (chunk.getD ch []).length)]
        simp
      rw [hw]
      have hpl : pre.length + (chunk.getD ch []).length =
          (pre ++ chunk.getD ch []).length := by simp
      rw [hpl, ih (pre ++ chunk.getD ch []) (by simp [chunksWF, hWF.2])]
      simp

theorem combineChannel_spec (C ch : ℕ) (hch : ch < C) (chunks : List OutChunk)
    (hWF : chunksWF C chunks = true) :
    combineChannel (totalLen chunks) chunks ch =
      (chunks.map (fun chunk => chunk.getD ch [])).flatten := by
  have h := combineChannel_fold C ch hch chunks [] hWF
  simpa [combineChannel] using h

theorem combineChannel_length (T : ℕ) (chunks : List OutChunk) (ch : ℕ) :
    (combineChannel T chunks ch).length = T := by
  rw [combineChannel]
  have h : ∀ (l : List OutChunk) (acc : List ℚ × ℕ),
      ((l.foldl (fun (acc : List ℚ × ℕ) chunk => (wl acc.1 acc.2 (chunk.getD ch []),
        acc.2 + (chunk.getD ch []).length)) acc).1).length = acc.1.length := by
    intro l
    induction l with
    | nil => intro acc; rfl
    | cons c t ih =>
        intro acc
        rw [List.foldl_cons, ih]
        simp [wl_length]
  rw [h]
  simp

theorem combine_spec (C : ℕ) (chunks : List OutChunk) (hWF : chunksWF C chunks = true) :
    (combine C chunks).length = C ∧
    (∀ ch, ch < C → (combine C chunks).getD ch [] =
      (chunks.map (fun chunk => chunk.getD ch [])).flatten) ∧
    (∀ a ∈ combine C chunks, a.length = totalLen chunks) := by
  refine ⟨by simp [combine], ?_, ?_⟩
  · intro ch hch
    rw [combine]
    have hg : ((List.range C).map (combineChannel (totalLen chunks) chunks)).getD ch [] =
        combineChannel (totalLen chunks) chunks ch := by
      simp [List.getD_eq_getElem?_getD, List.getElem?_map, List.getElem?_range, hch]
    rw [hg, combineChannel_spec C ch hch chunks hWF]
  · intro a ha
    rw [combine] at ha
    simp only [List.mem_map] at ha
    obtain ⟨ch, _, hae⟩ := ha
    rw [← hae]
    exact combineChannel_length _ _ _

theorem pAWSbody_out (o : Oracle) (L C S fuel rfuel k : ℕ) (out : List (List ℚ))
    (hok : (pAWSbody o L C S fuel rfuel k).1 = Except.ok out) :
    ∃ cs, (outputChunksRun o L C S fuel rfuel k).1 = Except.ok cs ∧
      chunksWF C cs = true ∧ out = combine C cs := by
  rcases hsl : studyLoop o S L fuel 0 k with ⟨rs, ks, es⟩
  cases rs with
  | error er =>
      exfalso
      have hov : (pAWSbody o L C S fuel rfuel k).1 = Except.error er := by
        simp [pAWSbody, bind_apply, hsl]
      rw [hov] at hok
      exact absurd hok (by simp)
  | ok u =>
      rcases hpl : processLoop o C S L rfuel fuel 0 [] ks with ⟨rp, kp, ep⟩
      cases rp with
      | error er =>
          exfalso
          have hov : (pAWSbody o L C S fuel rfuel k).1 = Except.error er := by
            simp [pAWSbody, bind_apply, hsl, hpl]
          rw [hov] at hok
          exact absurd hok (by simp)
      | ok accP =>
          rcases hdr : tryRetrieveOutput o C S true rfuel accP kp with ⟨rd, kd, ed⟩
          cases rd with
          | error er =>
              exfalso
              have hov : (pAWSbody o L C S fuel rfuel k).1 = Except.error er := by
                simp [pAWSbody, bind_apply, hsl, hpl, hdr]
              rw [hov] at hok
              exact absurd hok (by simp)
          | ok accD =>
              have hout : out = combine C accD := by
                have hov : (pAWSbody o L C S fuel rfuel k).1 =
                    Except.ok (combine C accD) := by
                  simp [pAWSbody, bind_apply, hsl, hpl, hdr]
                rw [hov] at hok
                injection hok with h
                exact h.symm
              have hWFp : chunksWF C accP = true :=
                processLoop_WF o C S L rfuel fuel 0 [] ks accP (by rw [hpl])
                  (by simp [chunksWF])
              have hWFd : chunksWF C accD = true :=
                tryRetrieve_WF o C S true rfuel accP kp accD (by rw [hdr]) hWFp
              have hrun : (outputChunksRun o L C S fuel rfuel k).1 =
                  Except.ok accD := by
                simp [outputChunksRun, bind_apply, hsl, hpl, hdr]
              exact ⟨accD, hrun, hWFd, hout⟩

theorem pAWS_out (o : Oracle) (L C S fuel rfuel k : ℕ) (out : List (List ℚ))
    (hok : (processAudioWithStudy o L C S fuel rfuel k).1 = Except.ok out) :
    (pAWSbody o L C S fuel rfuel k).1 = Except.ok out := by
  rcases hb : pAWSbody o L C S fuel rfuel k with ⟨rb, kb, eb⟩
  cases rb with
  | error er =>
      exfalso
      have hov : (processAudioWithStudy o L C S fuel rfuel k).1 = Except.error er := by
        cases er <;>
          simp [processAudioWithStudy, bind_apply, tryFinally, hb, pAWSfin_apply]
      rw [hov] at hok
      exact absurd hok (by simp)
  | ok out' =>
      have hov : (processAudioWithStudy o L C S fuel rfuel k).1 = Except.ok out' := by
        simp [processAudioWithStudy, bind_apply, tryFinally, hb, pAWSfin_apply]
      rw [hov] at hok
      injection hok with h
      rw [h]

/-- C7: whenever processAudioWithStudy returns a result, then writing cs for
the run's own outputChunks accumulator (the value of outputChunksRun, the
same deterministic run stopped at line 206, so cs is exactly the list of
chunks this request retrieved and stored, in retrieval order): every stored
chunk of cs has the session's channel count (and equal per-channel lengths
within a chunk); the result is the recombination of cs and has one array per
session channel; each channel array is the concatenation, in retrieval
order, of that channel's entries of cs with sample order preserved; and all
result channel arrays have the same length, the sum of the retrieved chunk
lengths (totalLen cs). -/
theorem output_accumulator_concat (o : Oracle) (L C S fuel rfuel k : ℕ)
    (out : List (List ℚ))
    (hok : (processAudioWithStudy o L C S fuel rfuel k).1 = Except.ok out) :
    ∃ cs, (outputChunksRun o L C S fuel rfuel k).1 = Except.ok cs ∧
      chunksWF C cs = true ∧ out = combine C cs ∧
      out.length = C ∧
      (∀ ch, ch < C → out.getD ch [] =
        (cs.map (fun chunk => chunk.getD ch [])).flatten) ∧
      (∀ a ∈ out, a.length = totalLen cs) := by
  obtain ⟨cs, hrun, hWF, hout⟩ := pAWSbody_out o L C S fuel rfuel k out
    (pAWS_out o L C S fuel rfuel k out hok)
  have hcs := combine_spec C cs hWF
  subst hout
  exact ⟨cs, hrun, hWF, rfl, hcs.1, hcs.2.1, hcs.2.2⟩

def oW7 : Oracle where
  pow2 := fun _ => 1
  newHandle := 1
  samplesRequired := 1
  avail := fun kk => if kk = 2 then 1 else 0
  retr := fun _ => 1
  heap := fun _ _ _ => 7
  fails := fun _ => none

theorem output_accumulator_concat_witness :
    ∃ cs, (outputChunksRun oW7 1 1 1 2 2 0).1 = Except.ok cs ∧
      chunksWF 1 cs = true ∧ ([[(7 : ℚ)]] : List (List ℚ)) = combine 1 cs ∧
      ([[(7 : ℚ)]] : List (List ℚ)).length = 1 ∧
      (∀ ch, ch < 1 → ([[(7 : ℚ)]] : List (List ℚ)).getD ch [] =
        (cs.map (fun chunk => chunk.getD ch [])).flatten) ∧
      (∀ a ∈ ([[(7 : ℚ)]] : List (List ℚ)), a.length = totalLen cs) :=
  output_accumulator_concat oW7 1 1 1 2 2 0 [[7]] (by decide)

/-! ## Claim C4: the retrieval policy -/

def oW4 : Oracle where
  pow2 := fun _ => 1
  newHandle := 1
  samplesRequired := 2
  avail := fun kk => if kk = 0 then 3 else 0
  retr := fun _ => 2
  heap := fun _ _ _ => 0
  fails := fun _ => none

/-- C4 counterexample: during a non-final (process-pass) retrieval with
samplesRequired = 2 and available = 3, the loop allocates a per-channel
output buffer of available * 4 = 12 bytes (3 samples), not
min(samplesRequired, available) * 4 = 8 bytes as the claim states; the
retrieve call itself does use min(samplesRequired, available) = 2. -/
theorem retrieval_alloc_size_counterexample :
    runEv (tryRetrieveOutput oW4 1 2 false 3 [] 0) =
      [Event.availableCall 3, Event.mallocEv 12, Event.retrieveCall 2 2,
        Event.freeEv, Event.availableCall 0] ∧
    ¬ (12 = 4 * min 2 3) := by
  decide

/-- Expects exactly n events satisfying p, returning the remainder. -/
def expectN : ℕ → (Event → Bool) → List Event → Option (List Event)
  | 0, _, l => some l
  | n + 1, p, e :: l => if p e then expectN n p l else none
  | _ + 1, _, [] => none

/-- Grammar of a retrieval-loop trace (amended C4): each iteration reads
available; stops if available < 1, or (in non-final mode) if
available < samplesRequired; otherwise allocates `channels` output buffers of
available*4 bytes (available samples) each, retrieves with
maxSamples = min(samplesRequired, available), and frees the `channels`
buffers before the next iteration.  An empty remainder is also accepted at
any point (the trace of a run that ran out of fuel mid-loop). -/
def retrOk (S C : ℕ) (fin : Bool) : ℕ → List Event → Bool
  | _, [] => true
  | 0, _ => false
  | fuel + 1, Event.availableCall a :: rest =>
      if a < 1 then rest.isEmpty
      else if !fin && decide (a < S) then rest.isEmpty
      else
        match expectN C (fun e => e == Event.mallocEv (a * 4)) rest with
        | none => false
        | some rest₁ =>
            match rest₁ with
            | Event.retrieveCall m _ :: rest₂ =>
                m == min S a &&
                  (match expectN C (fun e => e == Event.freeEv) rest₂ with
                   | none => false
                   | some rest₃ => retrOk S C fin fuel rest₃)
            | _ => false
  | _ + 1, _ => false

theorem expectN_replicate (n : ℕ) (p : Event → Bool) (e : Event) (l : List Event)
    (hp : p e = true) :
    expectN n p (List.replicate n e ++ l) = some l := by
  induction n with
  | zero => rfl
  | succ m ih => simp [List.replicate_succ, expectN, hp, ih]

/-- C4 (amended): the retrieval loop reads available, stops when
available < 1 or — in non-final mode only — when available < samplesRequired;
each iteration allocates `channels` output buffers of exactly `available`
samples (available*4 bytes) each — in both modes — calls retrieve with
maxSamples = min(samplesRequired, available), frees the `channels` buffers,
and appends any retrieved chunk to the accumulator. -/
theorem retrieval_policy_amended (o : Oracle) (ho : o.ok) (C S : ℕ) (fin : Bool) :
    ∀ fuel (acc : List OutChunk) k,
      retrOk S C fin fuel (runEv (tryRetrieveOutput o C S fin fuel acc k)) = true ∧
      (∀ r, (tryRetrieveOutput o C S fin fuel acc k).1 = Except.ok r →
        ∃ t, r = acc ++ t) := by
  intro fuel
  induction fuel with
  | zero =>
      intro acc k
      refine ⟨by simp [tryRetrieveOutput, runEv, retrOk], ?_⟩
      intro r hr
      exact absurd hr (by simp [tryRetrieveOutput])
  | succ n ih =>
      intro acc k
      by_cases h1 : o.avail k < 1
      · rw [tryRetrieve_break0 o C S fin n k acc (ho k) h1]
        refine ⟨?_, ?_⟩
        · simp only [runEv, retrOk]
          simp [h1]
        · intro r hr
          simp only at hr
          injection hr with h
          exact ⟨[], by rw [← h]; simp⟩
      · by_cases h2 : (!fin && decide (o.avail k < S)) = true
        · rw [tryRetrieve_breakS o C S fin n k acc (ho k) h1 h2]
          refine ⟨?_, ?_⟩
          · simp only [runEv, retrOk]
            simp [h1, h2]
          · intro r hr
            simp only at hr
            injection hr with h
            exact ⟨[], by rw [← h]; simp⟩
        · rw [Bool.not_eq_true] at h2
          have hrec := ih (retrStep o C (k + 1) acc) (k + 1 + 1)
          rw [tryRetrieve_iter o C S fin n k acc (ho k) h1 h2 (ho (k + 1))]
          refine ⟨?_, ?_⟩
          · simp only [runEv, retrIterEvents]
            have hshape : (Event.availableCall (o.avail k) ::
                (List.replicate C (Event.mallocEv (o.avail k * 4)) ++
                  Event.retrieveCall (min S (o.avail k)) (o.retr (k + 1)) ::
                    List.replicate C Event.freeEv)) ++
                (tryRetrieveOutput o C S fin n (retrStep o C (k + 1) acc)
                  (k + 1 + 1)).2.2 =
                Event.availableCall (o.avail k) ::
                (List.replicate C (Event.mallocEv (o.avail k * 4)) ++
                  Event.retrieveCall (min S (o.avail k)) (o.retr (k + 1)) ::
                    (List.replicate C Event.freeEv ++
                      (tryRetrieveOutput o C S fin n (retrStep o C (k + 1) acc)
                        (k + 1 + 1)).2.2)) := by
              simp
            rw [hshape, retrOk]
            have hn1 : ¬ o.avail k < 1 := h1
            rw [if_neg hn1, if_neg (by rw [h2]; simp)]
            rw [expectN_replicate C _ _ _ (by simp)]
            simp only
            rw [expectN_replicate C _ _ _ (by simp)]
            simp only [beq_self_eq_true, Bool.true_and]
            exact (hrec.1)
          · intro r hr
            simp only at hr
            obtain ⟨t, ht⟩ := hrec.2 r hr
            rw [retrStep] at ht
            by_cases h3 : o.retr (k + 1) > 0
            · rw [if_pos h3] at ht
              exact ⟨[(List.range C).map (fun ch =>
                (List.range (o.retr (k + 1))).map (fun i => o.heap (k + 1) ch i))] ++ t,
                by rw [ht]; simp⟩
            · rw [if_neg h3] at ht
              exact ⟨t, ht⟩

theorem retrieval_policy_amended_witness :
    retrOk 2 1 false 3 (runEv (tryRetrieveOutput oW4 1 2 false 3 [] 0)) = true :=
  (retrieval_policy_amended oW4 (fun _ => rfl) 1 2 false 3 [] 0).1

/-! ## Claim C8: parameter validation -/

/-- JS number values as far as the validation logic observes them. -/
inductive JSNum where
  | nan : JSNum
  | inf : JSNum
  | ninf : JSNum
  | fin (q : ℚ) : JSNum
deriving DecidableEq, Repr

def JSNum.isFinite : JSNum → Bool
  | JSNum.fin _ => true
  | _ => false

/-- JS x === 0. -/
def JSNum.eqz : JSNum → Bool
  | JSNum.fin q => q == 0
  | _ => false

/-- JS x <= 0 (false on NaN and +Infinity, true on -Infinity). -/
def JSNum.lez : JSNum → Bool
  | JSNum.fin q => decide (q ≤ 0)
  | JSNum.ninf => true
  | _ => false

inductive SPOutcome where
  | bypass : SPOutcome
  | invalid (msg : String) : SPOutcome
  | createCalled : SPOutcome
deriving DecidableEq, Repr

/-- Transcription of the validation-and-creation prefix of
PitchShifter.shiftPitch (lines 39-117): semitones === 0 returns the input
unchanged (bypass); otherwise the checks run in source order and throw (the
interpolated values are dropped from the messages) before the
rubberband_new call, which is recorded as createCalled.  pitchRatio stands
for the platform's Math.pow(2, semitones / 12) result; the constant-options
finiteness check (always true) is omitted. -/
def shiftPitchValidation (semitones sampleRate channels pitchRatio : JSNum) :
    SPOutcome :=
  if semitones.eqz then SPOutcome.bypass
  else if !semitones.isFinite then SPOutcome.invalid "Invalid semitones value"
  else if !pitchRatio.isFinite || pitchRatio.lez then
    SPOutcome.invalid "Invalid pitch ratio calculated"
  else if !sampleRate.isFinite || sampleRate.lez then
    SPOutcome.invalid "Invalid sample rate"
  else if !channels.isFinite || channels.lez then
    SPOutcome.invalid "Invalid channels"
  else SPOutcome.createCalled

def oW8 : Oracle where
  pow2 := fun _ => 1
  newHandle := 1
  samplesRequired := 1
  avail := fun _ => 0
  retr := fun _ => 0
  heap := fun _ _ _ => 0
  fails := fun _ => none

/-- C8 counterexample: the worker pipeline performs no parameter validation.
A request with sampleRate = 0 (non-positive, hence invalid per the claim) and
semitones = 1 issues rubberband_new — a session is created — and the request
even completes, with no invalid-parameter error at any point. -/
theorem worker_no_validation_counterexample :
    (runEv (processAudio oW8 [[0]] 0 1 1 2 2 0)).countP isNew = 1 ∧
    (processAudio oW8 [[0]] 0 1 1 2 2 0).1 = Except.ok () := by
  decide

/-- C8 (amended): only the main-thread PitchShifter.shiftPitch path
validates, and only for semitones ≠ 0: any invalid parameter (non-finite
semitones; non-finite or non-positive derived pitch ratio; non-finite or
non-positive sample rate; non-finite or non-positive channel count) makes
the validation chain throw an invalid-parameter error before the
rubberband_new call is reached.  The worker path creates the session without
validating (see the counterexample). -/
theorem shiftPitch_validation (semitones sampleRate channels pitchRatio : JSNum)
    (hnz : semitones.eqz = false)
    (hbad : semitones.isFinite = false ∨ pitchRatio.isFinite = false ∨
      pitchRatio.lez = true ∨ sampleRate.isFinite = false ∨ sampleRate.lez = true ∨
      channels.isFinite = false ∨ channels.lez = true) :
    ∃ m, shiftPitchValidation semitones sampleRate channels pitchRatio =
      SPOutcome.invalid m := by
  simp only [shiftPitchValidation, hnz, Bool.false_eq_true, if_false]
  split
  · exact ⟨_, rfl⟩
  split
  · exact ⟨_, rfl⟩
  split
  · exact ⟨_, rfl⟩
  split
  · exact ⟨_, rfl⟩
  exfalso
  rename_i h1 h2 h3 h4
  simp only [Bool.not_eq_true, Bool.or_eq_true, Bool.not_eq_true',
    not_or] at h1 h2 h3 h4
  rcases hbad with h | h | h | h | h | h | h <;> simp_all

theorem shiftPitch_validation_witness :
    ∃ m, shiftPitchValidation (JSNum.fin 1) (JSNum.fin 0) (JSNum.fin 2)
      (JSNum.fin 2) = SPOutcome.invalid m :=
  shiftPitch_validation (JSNum.fin 1) (JSNum.fin 0) (JSNum.fin 2) (JSNum.fin 2)
    (by decide)
    (Or.inr (Or.inr (Or.inr (Or.inr (Or.inl (by decide))))))

/-! ## Claim C9: the WAV encoder (AudioExporter.audioBufferToWav)

Bytes are naturals below 256.  DataView little-endian writes become explicit
byte lists; setUint16/setUint32 apply the JS ToUint16/ToUint32 reduction
(mod 2^16 / 2^32), which the % 256 chains below realise; setInt16 takes the
two's-complement low 16 bits of the truncated number. -/

def u16le (v : ℕ) : List ℕ := [v % 256, v / 256 % 256]

def u32le (v : ℕ) : List ℕ :=
  [v % 256, v / 256 % 256, v / 65536 % 256, v / 16777216 % 256]

/-- JS ToInteger: truncation toward zero. -/
def truncQ (q : ℚ) : ℤ := if 0 ≤ q then ⌊q⌋ else ⌈q⌉

/-- DataView.setInt16 value bytes: two's-complement low 16 bits, LE. -/
def i16le (z : ℤ) : List ℕ := u16le (z % 65536).toNat

/-- Math.max(-1, Math.min(1, sample)). -/
def clampQ (q : ℚ) : ℚ := max (-1) (min 1 q)

/-- One encoded sample: setInt16(clamp(sample) * 0x7fff). -/
def sample16 (q : ℚ) : List ℕ := i16le (truncQ (clampQ q * 32767))

/-- writeString: one byte per character code. -/
def str4 (s : String) : List ℕ := s.toList.map Char.toNat

/-- The AudioBuffer fields audioBufferToWav reads: length (frames),
numberOfChannels, sampleRate, and getChannelData(ch)[i]. -/
structure JSAudioBuffer where
  length : ℕ
  numberOfChannels : ℕ
  sampleRate : ℕ
  data : ℕ → ℕ → ℚ

/-- The sample loop of audioBufferToWav: offset starts at 44 and advances by
2 per setInt16, frames outer, channels inner. -/
def wavDataLoop (b : JSAudioBuffer) (buf : List ℕ) : List ℕ :=
  ((List.range b.length).foldl
    (fun (acc : List ℕ × ℕ) i =>
      (List.range b.numberOfChannels).foldl
        (fun (acc : List ℕ × ℕ) ch =>
          (wl acc.1 acc.2 (sample16 (b.data ch i)), acc.2 + 2)) acc)
    (buf, 44)).1

/-- Transcription of AudioExporter.audioBufferToWav: a zeroed ArrayBuffer of
44 + dataSize bytes, the header written field by field through the DataView,
then the interleaved int16 samples from offset 44. -/
def audioBufferToWav (b : JSAudioBuffer) : List ℕ :=
  let length := b.length
  let channels := b.numberOfChannels
  let sampleRate := b.sampleRate
  let bytesPerSample := 2
  let blockAlign := channels * bytesPerSample
  let byteRate := sampleRate * blockAlign
  let dataSize := length * blockAlign
  let bufferSize := 44 + dataSize
  let buf0 := List.replicate bufferSize 0
  let buf1 := wl buf0 0 (str4 "RIFF")
  let buf2 := wl buf1 4 (u32le (bufferSize - 8))
  let buf3 := wl buf2 8 (str4 "WAVE")
  let buf4 := wl buf3 12 (str4 "fmt ")
  let buf5 := wl buf4 16 (u32le 16)
  let buf6 := wl buf5 20 (u16le 1)
  let buf7 := wl buf6 22 (u16le channels)
  let buf8 := wl buf7 24 (u32le sampleRate)
  let buf9 := wl buf8 28 (u32le byteRate)
  let buf10 := wl buf9 32 (u16le blockAlign)
  let buf11 := wl buf10 34 (u16le 16)
  let buf12 := wl buf11 36 (str4 "data")
  let buf13 := wl buf12 40 (u32le dataSize)
  wavDataLoop b buf13

/-- Modelled from the spec table (section 6, interchange byte format): the
header fields in order, with the values the table prescribes. -/
def wavHeader (b : JSAudioBuffer) : List ℕ :=
  str4 "RIFF" ++
    (u32le (44 + b.length * b.numberOfChannels * 2 - 8) ++
      (str4 "WAVE" ++
        (str4 "fmt " ++
          (u32le 16 ++
            (u16le 1 ++
              (u16le b.numberOfChannels ++
                (u32le b.sampleRate ++
                  (u32le (b.sampleRate * b.numberOfChannels * 2) ++
                    (u16le (b.numberOfChannels * 2) ++
                      (u16le 16 ++
                        (str4 "data" ++
                          u32le (b.length * b.numberOfChannels * 2))))))))))))

/-- Modelled from the spec table: the interleaved int16 samples,
clamp(float,-1,1)×32767, frame-major. -/
def wavSamples (b : JSAudioBuffer) : List ℕ :=
  ((List.range b.length).map (fun i =>
    ((List.range b.numberOfChannels).map (fun ch => sample16 (b.data ch i))).flatten)).flatten

def wavSpecBytes (b : JSAudioBuffer) : List ℕ := wavHeader b ++ wavSamples b

/-- Little-endian field readback. -/
def readU16 (l : List ℕ) (o : ℕ) : ℕ := l.getD o 0 + 256 * l.getD (o + 1) 0

def readU32 (l : List ℕ) (o : ℕ) : ℕ :=
  l.getD o 0 + 256 * l.getD (o + 1) 0 + 65536 * l.getD (o + 2) 0 +
    16777216 * l.getD (o + 3) 0

theorem u32le_len (v : ℕ) : (u32le v).length = 4 := rfl
theorem u16le_len (v : ℕ) : (u16le v).length = 2 := rfl
theorem str4_len_riff : (str4 "RIFF").length = 4 := rfl
theorem str4_len_wave : (str4 "WAVE").length = 4 := rfl
theorem str4_len_fmt : (str4 "fmt ").length = 4 := rfl
theorem str4_len_data : (str4 "data").length = 4 := rfl

theorem wl_wl' {α : Type} (xs ys : List α) (dst : List α) (o o' : ℕ)
    (h : o' = o + xs.length) :
    wl (wl dst o xs) o' ys = wl dst o (xs ++ ys) := by
  rw [h, wl_wl]

theorem wavHeader_length (b : JSAudioBuffer) : (wavHeader b).length = 44 := by
  simp [wavHeader, u32le_len, u16le_len, str4_len_riff, str4_len_wave,
    str4_len_fmt, str4_len_data]

theorem header_writes (n v1 c r br ba ds : ℕ) (h : 44 ≤ n) :
    wl (wl (wl (wl (wl (wl (wl (wl (wl (wl (wl (wl (wl
      (List.replicate n 0) 0 (str4 "RIFF")) 4 (u32le v1)) 8 (str4 "WAVE"))
      12 (str4 "fmt ")) 16 (u32le 16)) 20 (u16le 1)) 22 (u16le c))
      24 (u32le r)) 28 (u32le br)) 32 (u16le ba)) 34 (u16le 16))
      36 (str4 "data")) 40 (u32le ds) =
    (str4 "RIFF" ++ (u32le v1 ++ (str4 "WAVE" ++ (str4 "fmt " ++ (u32le 16 ++
      (u16le 1 ++ (u16le c ++ (u32le r ++ (u32le br ++ (u16le ba ++
      (u16le 16 ++ (str4 "data" ++ u32le ds)))))))))))) ++
      List.replicate (n - 44) 0 := by
  rw [wl_wl' (str4 "data") _ _ 36 40 (by rw [str4_len_data])]
  rw [wl_wl' (u16le 16) _ _ 34 36 (by rw [u16le_len])]
  rw [wl_wl' (u16le ba) _ _ 32 34 (by rw [u16le_len])]
  rw [wl_wl' (u32le br) _ _ 28 32 (by rw [u32le_len])]
  rw [wl_wl' (u32le r) _ _ 24 28 (by rw [u32le_len])]
  rw [wl_wl' (u16le c) _ _ 22 24 (by rw [u16le_len])]
  rw [wl_wl' (u16le 1) _ _ 20 22 (by rw [u16le_len])]
  rw [wl_wl' (u32le 16) _ _ 16 20 (by rw [u32le_len])]
  rw [wl_wl' (str4 "fmt ") _ _ 12 16 (by rw [str4_len_fmt])]
  rw [wl_wl' (str4 "WAVE") _ _ 8 12 (by rw [str4_len_wave])]
  rw [wl_wl' (u32le v1) _ _ 4 8 (by rw [u32le_len])]
  rw [wl_wl' (str4 "RIFF") _ _ 0 4 (by rw [str4_len_riff])]
  have hlen : (str4 "RIFF" ++ (u32le v1 ++ (str4 "WAVE" ++ (str4 "fmt " ++
      (u32le 16 ++ (u16le 1 ++ (u16le c ++ (u32le r ++ (u32le br ++
      (u16le ba ++ (u16le 16 ++ (str4 "data" ++ u32le ds)))))))))))).length
      = 44 := by
    simp [u32le_len, u16le_len, str4_len_riff, str4_len_wave,
      str4_len_fmt, str4_len_data]
  rw [wl_zero_of_le _ _ (by rw [hlen, List.length_replicate]; omega),
    drop_replicate', hlen]

set_option maxHeartbeats 1000000 in
theorem audioBufferToWav_header (b : JSAudioBuffer) :
    audioBufferToWav b =
      wavDataLoop b (wavHeader b ++
        List.replicate (b.length * b.numberOfChannels * 2) 0) := by
  have hm : ∀ x : ℕ, x * (b.numberOfChannels * 2) = x * b.numberOfChannels * 2 :=
    fun x => (mul_assoc x b.numberOfChannels 2).symm
  simp only [audioBufferToWav]
  rw [header_writes _ _ _ _ _ _ _ (by omega)]
  rw [wavHeader, hm, hm]
  have harith : 44 + b.length * b.numberOfChannels * 2 - 44 =
      b.length * b.numberOfChannels * 2 := by omega
  rw [harith]

theorem sample16_length (q : ℚ) : (sample16 q).length = 2 := rfl

theorem flatten_map_len (g : ℕ → List ℕ) (hg : ∀ ch, (g ch).length = 2)
    (l : List ℕ) : ((l.map g).flatten).length = l.length * 2 := by
  induction l with
  | nil => rfl
  | cons c cs ih =>
    simp only [List.map_cons, List.flatten_cons, List.length_append, hg, ih,
      List.length_cons]
    ring

theorem chans_fold (g : ℕ → List ℕ) (hg : ∀ ch, (g ch).length = 2)
    (chs : List ℕ) (done : List ℕ) (m : ℕ) (hm : chs.length * 2 ≤ m) :
    chs.foldl (fun (acc : List ℕ × ℕ) ch => (wl acc.1 acc.2 (g ch), acc.2 + 2))
      (done ++ List.replicate m 0, done.length) =
    (done ++ (chs.map g).flatten ++ List.replicate (m - chs.length * 2) 0,
      done.length + chs.length * 2) := by
  induction chs generalizing done m with
  | nil => simp
  | cons c cs ih =>
    rw [List.foldl_cons]
    have hstep : wl (done ++ List.replicate m 0) done.length (g c)
        = (done ++ g c) ++ List.replicate (m - 2) 0 := by
      rw [wl_append, wl_zero_of_le _ _ (by
        rw [List.length_replicate, hg]
        simp only [List.length_cons] at hm
        omega)]
      rw [drop_replicate', hg, List.append_assoc]
    have hoff : done.length + 2 = (done ++ g c).length := by
      simp [hg]
    rw [hstep, hoff]
    rw [ih (done ++ g c) (m - 2) (by
      simp only [List.length_cons] at hm
      omega)]
    simp only [Prod.mk.injEq]
    constructor
    · have hcount : m - 2 - cs.length * 2 = m - (c :: cs).length * 2 := by
        simp only [List.length_cons]
        omega
      rw [hcount]
      simp [List.append_assoc]
    · simp only [List.length_append, hg, List.length_cons]
      omega

theorem frames_fold (b : JSAudioBuffer) (is : List ℕ) (done : List ℕ) (m : ℕ)
    (hm : is.length * (b.numberOfChannels * 2) ≤ m) :
    is.foldl
      (fun (acc : List ℕ × ℕ) i =>
        (List.range b.numberOfChannels).foldl
          (fun (acc : List ℕ × ℕ) ch =>
            (wl acc.1 acc.2 (sample16 (b.data ch i)), acc.2 + 2)) acc)
      (done ++ List.replicate m 0, done.length) =
    (done ++ (is.map (fun i =>
        ((List.range b.numberOfChannels).map
          (fun ch => sample16 (b.data ch i))).flatten)).flatten ++
      List.replicate (m - is.length * (b.numberOfChannels * 2)) 0,
      done.length + is.length * (b.numberOfChannels * 2)) := by
  induction is generalizing done m with
  | nil => simp
  | cons i is ih =>
    have hm2 : is.length * (b.numberOfChannels * 2) +
        b.numberOfChannels * 2 ≤ m := by
      have h := hm
      rw [List.length_cons, Nat.succ_mul] at h
      exact h
    rw [List.foldl_cons]
    rw [chans_fold (fun ch => sample16 (b.data ch i))
      (fun ch => sample16_length _) (List.range b.numberOfChannels) done m
      (by
        rw [List.length_range]
        have hp : b.numberOfChannels * 2 ≤ m := by
          have := Nat.le_add_left (b.numberOfChannels * 2)
            (is.length * (b.numberOfChannels * 2))
          omega
        exact hp)]
    have hflat : (((List.range b.numberOfChannels).map
        (fun ch => sample16 (b.data ch i))).flatten).length
        = b.numberOfChannels * 2 := by
      rw [flatten_map_len _ (fun ch => sample16_length _), List.length_range]
    rw [List.length_range]
    have hoff : done.length + b.numberOfChannels * 2 =
        (done ++ ((List.range b.numberOfChannels).map
          (fun ch => sample16 (b.data ch i))).flatten).length := by
      simp [hflat]
    rw [hoff]
    rw [ih _ (m - b.numberOfChannels * 2) (Nat.le_sub_of_add_le hm2)]
    simp only [Prod.mk.injEq]
    constructor
    · have hcount : m - b.numberOfChannels * 2 -
          is.length * (b.numberOfChannels * 2) =
          m - (i :: is).length * (b.numberOfChannels * 2) := by
        rw [List.length_cons, Nat.succ_mul]
        generalize is.length * (b.numberOfChannels * 2) = p
        omega
      rw [hcount]
      simp [List.append_assoc]
    · simp only [List.length_append, hflat, List.length_cons, Nat.succ_mul]
      generalize is.length * (b.numberOfChannels * 2) = p
      omega

theorem audioBufferToWav_eq_spec (b : JSAudioBuffer) :
    audioBufferToWav b = wavSpecBytes b := by
  rw [audioBufferToWav_header]
  simp only [wavDataLoop]
  have h44 : (44 : ℕ) = (wavHeader b).length := (wavHeader_length b).symm
  rw [h44]
  rw [frames_fold b (List.range b.length) (wavHeader b)
    (b.length * b.numberOfChannels * 2)
    (by rw [List.length_range, mul_assoc])]
  have hz : b.length * b.numberOfChannels * 2 -
      b.length * (b.numberOfChannels * 2) = 0 := by
    rw [mul_assoc]
    omega
  simp [hz, wavSpecBytes, wavSamples]

theorem flatten_map_len' (g : ℕ → List ℕ) (k : ℕ) (hg : ∀ i, (g i).length = k)
    (l : List ℕ) : ((l.map g).flatten).length = l.length * k := by
  induction l with
  | nil => simp
  | cons c cs ih =>
    simp only [List.map_cons, List.flatten_cons, List.length_append, hg, ih,
      List.length_cons, Nat.succ_mul]
    exact Nat.add_comm _ _

theorem wavSamples_length (b : JSAudioBuffer) :
    (wavSamples b).length = b.length * (b.numberOfChannels * 2) := by
  have hg : ∀ i, (((List.range b.numberOfChannels).map
      (fun ch => sample16 (b.data ch i))).flatten).length
      = b.numberOfChannels * 2 := fun i => by
    rw [flatten_map_len _ (fun ch => sample16_length _), List.length_range]
  simp only [wavSamples]
  rw [flatten_map_len' _ _ hg, List.length_range]

/-- Claim C9: for every AudioBuffer, the WAV encoder output equals the
spec-modelled byte stream (44-byte little-endian header followed by the
interleaved clamped int16 samples): it has exactly 44 + L·C·2 bytes, the
magic strings sit at offsets 0/8/12/36, every numeric header field decodes
(little-endian) to the specified value whenever it fits its field width,
and the bytes from offset 44 are exactly the interleaved samples. -/
theorem wav_encoder_layout (b : JSAudioBuffer)
    (hC : b.numberOfChannels * 2 < 65536)
    (hR : b.sampleRate < 4294967296)
    (hBR : b.sampleRate * b.numberOfChannels * 2 < 4294967296)
    (hDS : 44 + b.length * b.numberOfChannels * 2 < 4294967296) :
    audioBufferToWav b = wavSpecBytes b ∧
    (audioBufferToWav b).length = 44 + b.length * b.numberOfChannels * 2 ∧
    (audioBufferToWav b).take 4 = str4 "RIFF" ∧
    ((audioBufferToWav b).drop 8).take 4 = str4 "WAVE" ∧
    ((audioBufferToWav b).drop 12).take 4 = str4 "fmt " ∧
    ((audioBufferToWav b).drop 36).take 4 = str4 "data" ∧
    readU32 (audioBufferToWav b) 4 =
      44 + b.length * b.numberOfChannels * 2 - 8 ∧
    readU32 (audioBufferToWav b) 16 = 16 ∧
    readU16 (audioBufferToWav b) 20 = 1 ∧
    readU16 (audioBufferToWav b) 22 = b.numberOfChannels ∧
    readU32 (audioBufferToWav b) 24 = b.sampleRate ∧
    readU32 (audioBufferToWav b) 28 =
      b.sampleRate * b.numberOfChannels * 2 ∧
    readU16 (audioBufferToWav b) 32 = b.numberOfChannels * 2 ∧
    readU16 (audioBufferToWav b) 34 = 16 ∧
    readU32 (audioBufferToWav b) 40 = b.length * b.numberOfChannels * 2 ∧
    (audioBufferToWav b).drop 44 = wavSamples b := by
  rw [audioBufferToWav_eq_spec b]
  refine ⟨rfl, ?_, rfl, rfl, rfl, rfl, ?_, rfl, rfl, ?_, ?_, ?_, ?_, rfl, ?_,
    rfl⟩
  · simp only [wavSpecBytes, List.length_append, wavHeader_length,
      wavSamples_length, mul_assoc]
  · have h : readU32 (wavSpecBytes b) 4 =
        (44 + b.length * b.numberOfChannels * 2 - 8) % 256 +
        256 * ((44 + b.length * b.numberOfChannels * 2 - 8) / 256 % 256) +
        65536 * ((44 + b.length * b.numberOfChannels * 2 - 8) / 65536 % 256) +
        16777216 *
          ((44 + b.length * b.numberOfChannels * 2 - 8) / 16777216 % 256) :=
      rfl
    rw [h]
    generalize b.length * b.numberOfChannels * 2 = d at hDS ⊢
    omega
  · have h : readU16 (wavSpecBytes b) 22 =
        b.numberOfChannels % 256 + 256 * (b.numberOfChannels / 256 % 256) :=
      rfl
    rw [h]
    omega
  · have h : readU32 (wavSpecBytes b) 24 =
        b.sampleRate % 256 + 256 * (b.sampleRate / 256 % 256) +
        65536 * (b.sampleRate / 65536 % 256) +
        16777216 * (b.sampleRate / 16777216 % 256) := rfl
    rw [h]
    omega
  · have h : readU32 (wavSpecBytes b) 28 =
        (b.sampleRate * b.numberOfChannels * 2) % 256 +
        256 * ((b.sampleRate * b.numberOfChannels * 2) / 256 % 256) +
        65536 * ((b.sampleRate * b.numberOfChannels * 2) / 65536 % 256) +
        16777216 *
          ((b.sampleRate * b.numberOfChannels * 2) / 16777216 % 256) := rfl
    rw [h]
    generalize b.sampleRate * b.numberOfChannels * 2 = e at hBR ⊢
    omega
  · have h : readU16 (wavSpecBytes b) 32 =
        (b.numberOfChannels * 2) % 256 +
        256 * ((b.numberOfChannels * 2) / 256 % 256) := rfl
    rw [h]
    omega
  · have h : readU32 (wavSpecBytes b) 40 =
        (b.length * b.numberOfChannels * 2) % 256 +
        256 * ((b.length * b.numberOfChannels * 2) / 256 % 256) +
        65536 * ((b.length * b.numberOfChannels * 2) / 65536 % 256) +
        16777216 *
          ((b.length * b.numberOfChannels * 2) / 16777216 % 256) := rfl
    rw [h]
    generalize b.length * b.numberOfChannels * 2 = d at hDS ⊢
    omega

/-- A two-frame stereo buffer used to instantiate the encoder theorem. -/
def bW9 : JSAudioBuffer := ⟨2, 2, 3, fun ch i => ((ch : ℚ) - (i : ℚ)) / 2⟩

theorem wav_encoder_layout_witness :
    bW9.numberOfChannels * 2 < 65536 ∧
      audioBufferToWav bW9 = wavSpecBytes bW9 ∧
      (audioBufferToWav bW9).length =
        44 + bW9.length * bW9.numberOfChannels * 2 :=
  ⟨by decide,
    (wav_encoder_layout bW9 (by decide) (by decide) (by decide) (by decide)).1,
    (wav_encoder_layout bW9 (by decide) (by decide) (by decide)
      (by decide)).2.1⟩

end AudioTransposer
